import Mathlib

unseal Rat.mul Rat.inv Rat.add Rat.sub

/-!
Verification of the price-detection and currency-conversion engine
(`chrome-extension/src/utils/converters.js`: the `Converters` object and the
`PriceDetector` object, plus `getDefaultHomeCurrency` from
`chrome-extension/src/popup/popup.js`).

The JavaScript source is shallowly embedded: strings are `List Char` (one
entry per UTF-16 code unit of the source's strings; every character involved
is a single code unit), JS numbers are modelled as `ℚ` with `Option ℚ` where
`NaN` can arise, and the regular expressions of the source are unfolded into
explicit character-list matching functions that follow the engine's
leftmost-match / ordered-alternation / greedy-quantifier semantics.
-/

/-! ### Character classes

`isAZ` is the class `[A-Z]` under the `i` flag (case-insensitive matching
folds ASCII letters, so it is `[A-Za-z]`).  `isDigitC` is `\d`.  `isWS` is
the JS `\s` class, which coincides with the character set removed by
`String.prototype.trim` (WhiteSpace ∪ LineTerminator). -/

def isAZ (c : Char) : Bool :=
  (65 ≤ c.toNat && c.toNat ≤ 90) || (97 ≤ c.toNat && c.toNat ≤ 122)

def isDigitC (c : Char) : Bool := 48 ≤ c.toNat && c.toNat ≤ 57

def isDC (c : Char) : Bool := isDigitC c || c = ','

def isWS (c : Char) : Bool :=
  (9 ≤ c.toNat && c.toNat ≤ 13) || c.toNat = 32 || c.toNat = 160 ||
  c.toNat = 0x1680 || (0x2000 ≤ c.toNat && c.toNat ≤ 0x200A) ||
  c.toNat = 0x2028 || c.toNat = 0x2029 || c.toNat = 0x202F ||
  c.toNat = 0x205F || c.toNat = 0x3000 || c.toNat = 0xFEFF

/-- Length of the leading run of characters satisfying `p` (the number of
characters a greedy `p*` consumes). -/
def cw (p : Char → Bool) (l : List Char) : Nat := (l.takeWhile p).length

/-- JS `String.prototype.trim`: strip leading and trailing `isWS` characters. -/
def trimL (l : List Char) : List Char :=
  ((l.dropWhile isWS).reverse.dropWhile isWS).reverse

/-! ### `parseFloat`

Model of the JS builtin `parseFloat`: skip leading whitespace, then read the
longest prefix of the form `[+-]? (Digits (. Digits?)? | . Digits)
([eE][+-]?Digits)?`; trailing characters are ignored; if no digits were read
the result is `NaN`, modelled as `none`.  (JS additionally accepts an
`Infinity` literal; no input reachable from the detector's match pipeline
contains letters in its numeric part, and the claims under verification
never exercise it, so the model maps it to `none`.) -/

def natOfDigits (l : List Char) : Nat :=
  l.foldl (fun a c => 10 * a + (c.toNat - 48)) 0

def parseFloatJs (l : List Char) : Option ℚ :=
  let l1 := l.dropWhile isWS
  let sgn : ℚ := if l1.head? = some '-' then -1 else 1
  let l2 := if l1.head? = some '-' || l1.head? = some '+' then l1.tail else l1
  let ip := l2.takeWhile isDigitC
  let l3 := l2.drop ip.length
  let fp := if l3.head? = some '.' then l3.tail.takeWhile isDigitC else []
  let l4 := if l3.head? = some '.' then l3.tail.drop fp.length else l3
  if ip.length = 0 && fp.length = 0 then none
  else
    let mant : ℚ := (natOfDigits ip : ℚ) + (natOfDigits fp : ℚ) / 10 ^ fp.length
    let expPart : ℤ :=
      match l4 with
      | 'e' :: r => expTail r
      | 'E' :: r => expTail r
      | _ => 0
    some (sgn * mant * (10 : ℚ) ^ expPart)
where
  /-- exponent of `[eE][+-]?Digits` when the digit run is nonempty, else 0
  (an invalid exponent suffix is simply not part of the parsed prefix). -/
  expTail (r : List Char) : ℤ :=
    let esgn : ℤ := if r.head? = some '-' then -1 else 1
    let r2 := if r.head? = some '-' || r.head? = some '+' then r.tail else r
    let ed := r2.takeWhile isDigitC
    if ed.length = 0 then 0 else esgn * natOfDigits ed

/-! ### `PriceDetector.parsePrice` -/

/-- The transient record built by `parsePrice`:
`{ amount, currency, original }`. -/
structure PriceRec where
  amount : ℚ
  currency : String
  original : List Char
deriving DecidableEq, Repr

def isRch (c : Char) : Bool := c = 'R' || c = 'r'
def isSch (c : Char) : Bool := c = 'S' || c = 's'
def isIch (c : Char) : Bool := c = 'I' || c = 'i'
def isNch (c : Char) : Bool := c = 'N' || c = 'n'
def isUch (c : Char) : Bool := c = 'U' || c = 'u'
def isDch (c : Char) : Bool := c = 'D' || c = 'd'

/-- `/^₹/.test(str)` -/
def startsRupee (l : List Char) : Bool :=
  match l with
  | '₹' :: _ => true
  | _ => false

/-- `/^Rs\.?/i.test(str)` (the optional dot cannot affect whether the
anchored test succeeds). -/
def startsRs (l : List Char) : Bool :=
  match l with
  | c1 :: c2 :: _ => isRch c1 && isSch c2
  | _ => false

/-- `/^INR/i.test(str)` -/
def startsINR (l : List Char) : Bool :=
  match l with
  | c1 :: c2 :: c3 :: _ => isIch c1 && isNch c2 && isRch c3
  | _ => false

/-- `/\$/.test(str)` — a dollar sign anywhere in the string. -/
def hasDollar (l : List Char) : Bool := l.contains '$'

/-- `/^USD/i.test(str)` -/
def startsUSD (l : List Char) : Bool :=
  match l with
  | c1 :: c2 :: c3 :: _ => isUch c1 && isSch c2 && isDch c3
  | _ => false

/-- `/^US\$/i.test(str)` -/
def startsUSdollar (l : List Char) : Bool :=
  match l with
  | c1 :: c2 :: c3 :: _ => isUch c1 && isSch c2 && c3 = '$'
  | _ => false

/-- `str.replace(/^(₹|Rs\.?|INR)\s*/i, '')`: alternatives are tried in
order; after the group, `\s*` always succeeds, so no backtracking across the
group boundary occurs; an unmatched regex leaves the string unchanged. -/
def stripINR (l : List Char) : List Char :=
  match l with
  | '₹' :: r => r.dropWhile isWS
  | c1 :: c2 :: r =>
    if isRch c1 && isSch c2 then
      match r with
      | '.' :: r2 => r2.dropWhile isWS
      | _ => r.dropWhile isWS
    else
      match l with
      | d1 :: d2 :: d3 :: r3 =>
        if isIch d1 && isNch d2 && isRch d3 then r3.dropWhile isWS else l
      | _ => l
  | _ => l

/-- `str.replace(/^(US?\$|USD)\s*/i, '')`: `US?\$` (with greedy optional
`S`) is tried before `USD`; a bare `$` matches neither alternative, so it is
not stripped. -/
def stripUSD (l : List Char) : List Char :=
  match l with
  | c1 :: c2 :: c3 :: r =>
    if isUch c1 && isSch c2 && c3 = '$' then r.dropWhile isWS
    else if isUch c1 && c2 = '$' then (c3 :: r).dropWhile isWS
    else if isUch c1 && isSch c2 && isDch c3 then r.dropWhile isWS
    else l
  | c1 :: c2 :: r =>
    if isUch c1 && c2 = '$' then r.dropWhile isWS else l
  | _ => l

/-- `PriceDetector.parsePrice` (converters.js lines 165–188), as a pure
function on the character list of the input string. -/
def parsePriceL (l : List Char) : Option PriceRec :=
  let str := trimL l
  if startsRupee str || startsRs str || startsINR str then
    let amountStr := stripINR str
    if amountStr.isEmpty then none
    else
      match parseFloatJs (amountStr.filter (fun c => c ≠ ',')) with
      | none => none
      | some a => if a ≤ 0 then none else some ⟨a, "INR", str⟩
  else if hasDollar str || startsUSD str || startsUSdollar str then
    let amountStr := stripUSD str
    if amountStr.isEmpty then none
    else
      match parseFloatJs (amountStr.filter (fun c => c ≠ ',')) with
      | none => none
      | some a => if a ≤ 0 then none else some ⟨a, "USD", str⟩
  else none

def parsePrice (s : String) : Option PriceRec := parsePriceL s.data

/-! ### `Converters.convertCurrency` -/

/-- A rate table: `rates[c]` is `none` when the key is absent (in JS the
arithmetic on `undefined` yields `NaN`, modelled by `Option` propagation). -/
def RateTable := String → Option ℚ

/-- `Converters.convertCurrency` (converters.js lines 15–24). -/
def convertCurrency (amount : ℚ) (fromC toC : String) (rates : RateTable) :
    Option ℚ :=
  if fromC = toC then some amount
  else
    let amountInUSD : Option ℚ :=
      if fromC = "USD" then some amount
      else (rates fromC).map (fun r => amount / r)
    if toC = "USD" then amountInUSD
    else amountInUSD.bind (fun a => (rates toC).map (fun r => a * r))

/-- The §4.5 contract, written from the spec's words: identity when the
codes coincide, otherwise pivot through the single reference currency
`"USD"`: divide by `rateTable[fromCode]` unless `fromCode` is the pivot,
then multiply by `rateTable[toCode]` unless `toCode` is the pivot. -/
def convertSpec (amount : ℚ) (fromC toC : String) (rates : RateTable) :
    Option ℚ :=
  if fromC = toC then some amount
  else
    let inPivot : Option ℚ :=
      if fromC = "USD" then some amount
      else (rates fromC).map (fun r => amount / r)
    if toC = "USD" then inPivot
    else inPivot.bind (fun a => (rates toC).map (fun r => a * r))

/-! ### `getDefaultHomeCurrency` (popup.js lines 12–26 and 100–105) -/

def LOCALE_CURRENCY_MAP : List (String × String) :=
  [("US", "USD"), ("GB", "GBP"), ("IN", "INR"), ("DE", "EUR"), ("FR", "EUR"),
   ("ES", "EUR"), ("IT", "EUR"), ("NL", "EUR"), ("AT", "EUR"), ("BE", "EUR"),
   ("PT", "EUR"), ("IE", "EUR"), ("FI", "EUR")]

def lookupLocale (k : String) : Option String :=
  (LOCALE_CURRENCY_MAP.find? (fun p => p.1 = k)).map (fun p => p.2)

/-- JS `locale.split("-")` (never empty: `"".split("-")` is `[""]`). -/
def splitDash : List Char → List (List Char)
  | [] => [[]]
  | c :: t =>
    match splitDash t with
    | [] => [[]]
    | h :: rest => if c = '-' then [] :: h :: rest else (c :: h) :: rest

/-- The upper-cased region subtag: `locale.split("-").pop().toUpperCase()`
(`Char.toUpper` covers the ASCII letters, which is what every key of the
locale map consists of). -/
def upperLastSubtag (locale : List Char) : String :=
  String.mk (((splitDash locale).getLast?.getD []).map Char.toUpper)

/-- `getDefaultHomeCurrency` (popup.js lines 100–105), with
`navigator.language` as the argument
(`locale = navigator.language || "en-US"`: the empty string is falsy). -/
def getDefaultHomeCurrencyL (nav : List Char) : String :=
  let locale := if nav.isEmpty then "en-US".data else nav
  if ¬ locale.contains '-' then "USD"
  else (lookupLocale (upperLastSubtag locale)).getD "USD"

def getDefaultHomeCurrency (navLanguage : String) : String :=
  getDefaultHomeCurrencyL navLanguage.data

/-! ## Claim C3: the conversion contract -/

/-- C3 — Conversion contract: `convertCurrency` returns the amount
unchanged when the two codes coincide (for every amount including 0 and
every rate table), and in general coincides with the §4.5 pivot contract
`convertSpec`: divide by `rateTable[fromCode]` unless `fromCode` is the
pivot `"USD"`, then multiply by `rateTable[toCode]` unless `toCode` is the
pivot. -/
theorem convertCurrency_contract :
    (∀ (a : ℚ) (X : String) (r : RateTable), convertCurrency a X X r = some a) ∧
    (∀ (a : ℚ) (f t : String) (r : RateTable),
      convertCurrency a f t r = convertSpec a f t r) := by
  constructor
  · intro a X r
    simp [convertCurrency]
  · intro a f t r
    rfl

/-! ## Claim C10: pivot-entry noninterference -/

/-- C10 — `convertCurrency` never reads the rate table's `"USD"` entry: two
rate tables that agree on every key other than `"USD"` (one of them may
lack a `"USD"` entry entirely) yield identical results for every amount and
every pair of codes. -/
theorem convertCurrency_pivot_noninterference :
    ∀ (a : ℚ) (f t : String) (r1 r2 : RateTable),
      (∀ c, c ≠ "USD" → r1 c = r2 c) →
      convertCurrency a f t r1 = convertCurrency a f t r2 := by
  intro a f t r1 r2 h
  unfold convertCurrency
  by_cases hft : f = t
  · simp [hft]
  · by_cases hf : f = "USD" <;> by_cases ht : t = "USD" <;>
      simp only [if_neg hft, hf, ht, if_pos, if_neg, reduceIte] <;>
      (try rw [h f hf]) <;> (try rw [h t ht])

def ratesWithUSD : RateTable := fun c =>
  if c = "INR" then some 83 else if c = "USD" then some 1 else none

def ratesNoUSD : RateTable := fun c =>
  if c = "INR" then some 83 else none

/-- Witness for C10 at concrete inputs: the two tables differ exactly in
the `"USD"` entry (the second lacks it), yet the conversion agrees. -/
theorem convertCurrency_pivot_noninterference_witness :
    convertCurrency 100 "INR" "USD" ratesWithUSD
      = convertCurrency 100 "INR" "USD" ratesNoUSD :=
  convertCurrency_pivot_noninterference 100 "INR" "USD" ratesWithUSD ratesNoUSD
    (by
      intro c hc
      unfold ratesWithUSD ratesNoUSD
      by_cases h : c = "INR"
      · simp [h]
      · simp [h, hc])

/-! ## Basic lemmas about `dropWhile`, `cw` and `trimL` -/

theorem dropWhile_idem (p : Char → Bool) (l : List Char) :
    (l.dropWhile p).dropWhile p = l.dropWhile p := by
  have h := List.head?_dropWhile_not p l
  match hd : l.dropWhile p with
  | [] => rfl
  | c :: t =>
    rw [hd] at h
    simp only [List.head?_cons] at h
    simp [List.dropWhile_cons, h]

theorem dropWhile_eq_self_of_head (p : Char → Bool) (l : List Char)
    (h : ∀ c, l.head? = some c → p c = false) : l.dropWhile p = l := by
  match l with
  | [] => rfl
  | c :: t =>
    have hc := h c rfl
    simp [List.dropWhile_cons, hc]

theorem dropWhile_eq_drop_cw (p : Char → Bool) (l : List Char) :
    l.dropWhile p = l.drop (cw p l) := by
  induction l with
  | nil => rfl
  | cons c t ih =>
    by_cases h : p c
    · simp [List.dropWhile_cons, h, cw, List.takeWhile_cons, ih]
    · simp [List.dropWhile_cons, h, cw, List.takeWhile_cons]

theorem head?_trimL (l : List Char) (c : Char) (h : (trimL l).head? = some c) :
    isWS c = false := by
  unfold trimL at h
  rw [dropWhile_eq_drop_cw isWS (l.dropWhile isWS).reverse] at h
  rw [List.drop_reverse] at h
  rw [List.reverse_reverse] at h
  rw [List.head?_take] at h
  split at h
  · exact absurd h (by simp)
  · have h2 := List.head?_dropWhile_not isWS l
    rw [h] at h2
    exact h2

theorem trimL_idem (l : List Char) : trimL (trimL l) = trimL l := by
  conv =>
    lhs
    rw [trimL]
  rw [dropWhile_eq_self_of_head isWS (trimL l) (head?_trimL l)]
  rw [trimL]
  rw [List.reverse_reverse]
  rw [dropWhile_idem]

theorem trimL_nil_of_ws (l : List Char) (h : ∀ c ∈ l, isWS c = true) :
    trimL l = [] := by
  unfold trimL
  have h1 : l.dropWhile isWS = [] := List.dropWhile_eq_nil_iff.mpr h
  rw [h1]
  rfl

theorem mem_trimL (l : List Char) (c : Char) (h : c ∈ trimL l) : c ∈ l := by
  unfold trimL at h
  rw [List.mem_reverse] at h
  have h2 := (List.dropWhile_sublist isWS).subset h
  rw [List.mem_reverse] at h2
  exact (List.dropWhile_sublist isWS).subset h2

/-! ## Claim C8: locale default lookup -/

theorem getDHCL_nodash (l : List Char) (h : l.contains '-' = false)
    (hne : l ≠ []) : getDefaultHomeCurrencyL l = "USD" := by
  have hE : l.isEmpty = false := by simp [List.isEmpty_iff, hne]
  have hm : '-' ∉ l := by
    intro hmem
    rw [List.contains, List.elem_eq_mem] at h
    simp [hmem] at h
  simp [getDefaultHomeCurrencyL, hE, hm]

theorem getDHCL_dash (l : List Char) (hne : l ≠ []) (h : l.contains '-' = true) :
    getDefaultHomeCurrencyL l = (lookupLocale (upperLastSubtag l)).getD "USD" := by
  have hE : l.isEmpty = false := by simp [List.isEmpty_iff, hne]
  have hm : '-' ∈ l := by
    rw [List.contains, List.elem_eq_mem] at h
    simpa using h
  simp [getDefaultHomeCurrencyL, hE, hm]

/-- C8 counterexample — the claim's "returns 'USD' exactly when the input
is empty, has no region subtag, or the region is unmapped" fails in the
right-to-left direction: `"en-US"` is nonempty, has a separator, and its
upper-cased region `"US"` IS a key of the map, yet the function returns
`"USD"` (as the mapped value, not as the fallback). -/
theorem getDefaultHomeCurrency_exactly_usd_fails :
    getDefaultHomeCurrency "en-US" = "USD" ∧ "en-US" ≠ "" ∧
    ("en-US".data.contains '-') = true ∧
    lookupLocale (upperLastSubtag "en-US".data) = some "USD" :=
  ⟨by decide, by decide, by decide, by decide⟩

/-- C8 amended — for every locale identifier: if it contains no separator
(in particular any nonempty separator-free string), the result is the
fallback `"USD"`; if it is nonempty and contains a separator, the result is
the map entry of the upper-cased portion after the last separator, with
`"USD"` as the default when that region is unmapped.  (The empty string is
replaced by `"en-US"` first and therefore also yields `"USD"`.)  The claim's
"exactly when" direction fails only because a mapped region (`"US"`) can
itself map to the value `"USD"`. -/
theorem getDefaultHomeCurrency_lookup :
    (∀ s : String, s.data.contains '-' = false →
      getDefaultHomeCurrency s = "USD") ∧
    (∀ s : String, s.data ≠ [] → s.data.contains '-' = true →
      getDefaultHomeCurrency s = (lookupLocale (upperLastSubtag s.data)).getD "USD") := by
  constructor
  · intro s h
    by_cases he : s.data = []
    · unfold getDefaultHomeCurrency
      rw [he]
      decide
    · exact getDHCL_nodash s.data h he
  · intro s hne h
    exact getDHCL_dash s.data hne h

/-- Witness for C8 at concrete locales: no separator, mapped region,
unmapped region, and the empty input. -/
theorem getDefaultHomeCurrency_lookup_witness :
    getDefaultHomeCurrency "fr" = "USD" ∧ getDefaultHomeCurrency "en-GB" = "GBP" ∧
    getDefaultHomeCurrency "zh-Hant-TW" = "USD" ∧
    getDefaultHomeCurrency "" = "USD" := by
  refine ⟨getDefaultHomeCurrency_lookup.1 "fr" (by decide), ?_, ?_,
    getDefaultHomeCurrency_lookup.1 "" (by decide)⟩
  · rw [getDefaultHomeCurrency_lookup.2 "en-GB" (by decide) (by decide)]
    decide
  · rw [getDefaultHomeCurrency_lookup.2 "zh-Hant-TW" (by decide) (by decide)]
    decide

/-! ## Shared lemmas about `parsePrice` -/

theorem parsePriceL_none_of_tests (l : List Char)
    (h1 : startsRupee (trimL l) = false) (h2 : startsRs (trimL l) = false)
    (h3 : startsINR (trimL l) = false) (h4 : hasDollar (trimL l) = false)
    (h5 : startsUSD (trimL l) = false) (h6 : startsUSdollar (trimL l) = false) :
    parsePriceL l = none := by
  simp only [parsePriceL]
  rw [h1, h2, h3, h4, h5, h6]
  rfl

theorem parsePriceL_of_trim_nil (l : List Char) (h : trimL l = []) :
    parsePriceL l = none := by
  simp only [parsePriceL]
  rw [h]
  rfl

theorem parsePriceL_some (l : List Char) (r : PriceRec)
    (h : parsePriceL l = some r) :
    0 < r.amount ∧ r.original = trimL l := by
  simp only [parsePriceL] at h
  split at h
  · split at h
    · exact absurd h (by simp)
    · split at h
      · exact absurd h (by simp)
      · split at h
        · exact absurd h (by simp)
        · rename_i a _ hle
          cases h
          exact ⟨lt_of_not_le hle, rfl⟩
  · split at h
    · split at h
      · exact absurd h (by simp)
      · split at h
        · exact absurd h (by simp)
        · split at h
          · exact absurd h (by simp)
          · rename_i a _ hle
            cases h
            exact ⟨lt_of_not_le hle, rfl⟩
    · exact absurd h (by simp)

theorem parsePriceL_trim (l : List Char) :
    parsePriceL (trimL l) = parsePriceL l := by
  unfold parsePriceL
  rw [trimL_idem]

/-- A character that can occur in a bare numeric token (digit, comma or
period) is not a currency-marker character and is not whitespace. -/
theorem numlike_classes (c : Char) (h : isDC c = true ∨ c = '.') :
    isRch c = false ∧ isSch c = false ∧ isIch c = false ∧ isUch c = false ∧
    c ≠ '$' ∧ c ≠ '₹' ∧ isWS c = false := by
  rcases h with h | rfl
  · unfold isDC at h
    rcases Bool.or_eq_true_iff.mp h with hd | hc
    · unfold isDigitC at h
      have hn : 48 ≤ c.toNat ∧ c.toNat ≤ 57 := by
        rcases Bool.and_eq_true_iff.mp hd with ⟨ha, hb⟩
        exact ⟨Nat.le_of_ble_eq_true (by simpa using ha),
               Nat.le_of_ble_eq_true (by simpa using hb)⟩
      refine ⟨?_, ?_, ?_, ?_, ?_, ?_, ?_⟩
      · simp only [isRch, Bool.or_eq_false_iff, decide_eq_false_iff_not]
        constructor <;> (intro hcc; subst hcc; exact absurd hn (by decide))
      · simp only [isSch, Bool.or_eq_false_iff, decide_eq_false_iff_not]
        constructor <;> (intro hcc; subst hcc; exact absurd hn (by decide))
      · simp only [isIch, Bool.or_eq_false_iff, decide_eq_false_iff_not]
        constructor <;> (intro hcc; subst hcc; exact absurd hn (by decide))
      · simp only [isUch, Bool.or_eq_false_iff, decide_eq_false_iff_not]
        constructor <;> (intro hcc; subst hcc; exact absurd hn (by decide))
      · intro hcc; subst hcc; exact absurd hn (by decide)
      · intro hcc; subst hcc; exact absurd hn (by decide)
      · unfold isWS
        simp only [Bool.or_eq_false_iff, Bool.and_eq_false_iff,
          decide_eq_false_iff_not]
        omega
    · have : c = ',' := by simpa using hc
      subst this
      decide
  · decide

/-- If every character of the trimmed string is numeric-token material,
every currency test of `parsePrice` fails. -/
theorem currencyTests_false (str : List Char)
    (h : ∀ c ∈ str, isDC c = true ∨ c = '.') :
    startsRupee str = false ∧ startsRs str = false ∧ startsINR str = false ∧
    hasDollar str = false ∧ startsUSD str = false ∧ startsUSdollar str = false := by
  refine ⟨?_, ?_, ?_, ?_, ?_, ?_⟩
  · match str, h with
    | [], _ => rfl
    | c :: t, h =>
      have := (numlike_classes c (h c (by simp))).2.2.2.2.2.1
      unfold startsRupee
      split
      · rename_i heq
        cases heq
        exact absurd rfl this
      · rfl
  · match str, h with
    | [], _ => rfl
    | [c], _ => rfl
    | c1 :: c2 :: t, h =>
      have := (numlike_classes c1 (h c1 (by simp))).1
      unfold startsRs
      simp [this]
  · match str, h with
    | [], _ => rfl
    | [c], _ => rfl
    | [c1, c2], _ => rfl
    | c1 :: c2 :: c3 :: t, h =>
      have := (numlike_classes c1 (h c1 (by simp))).2.2.1
      unfold startsINR
      simp [this]
  · unfold hasDollar
    rw [List.contains, List.elem_eq_mem, decide_eq_false_iff_not]
    intro hmem
    exact (numlike_classes '$' (h '$' hmem)).2.2.2.2.1 rfl
  · match str, h with
    | [], _ => rfl
    | [c], _ => rfl
    | [c1, c2], _ => rfl
    | c1 :: c2 :: c3 :: t, h =>
      have := (numlike_classes c1 (h c1 (by simp))).2.2.2.1
      unfold startsUSD
      simp [this]
  · match str, h with
    | [], _ => rfl
    | [c], _ => rfl
    | [c1, c2], _ => rfl
    | c1 :: c2 :: c3 :: t, h =>
      have := (numlike_classes c1 (h c1 (by simp))).2.2.2.1
      unfold startsUSdollar
      simp [this]

/-! ## Claim C4: classify rejection set -/

/-- C4 — `parsePrice` returns no-match for the empty string, for every
whitespace-only string, for every bare numeric token (digits, commas,
periods) with no currency marker, and never produces a result with a zero
or negative amount (concrete zero and negative inputs in each supported
currency form are rejected). -/
theorem parsePrice_rejections :
    parsePrice "" = none ∧
    (∀ s : String, (∀ c ∈ s.data, isWS c = true) → parsePrice s = none) ∧
    (∀ s : String, (∀ c ∈ s.data, isDC c = true ∨ c = '.') → parsePrice s = none) ∧
    (∀ (s : String) (r : PriceRec), parsePrice s = some r → 0 < r.amount) ∧
    parsePrice "$0" = none ∧ parsePrice "₹0.00" = none ∧
    parsePrice "USD 0.00" = none ∧ parsePrice "Rs 0" = none ∧
    parsePrice "$-50" = none ∧ parsePrice "US$-50" = none ∧
    parsePrice "₹-5" = none ∧ parsePrice "-₹5" = none := by
  refine ⟨by decide, ?_, ?_, ?_, by decide, by decide, by decide, by decide,
    by decide, by decide, by decide, by decide⟩
  · intro s h
    exact parsePriceL_of_trim_nil s.data (trimL_nil_of_ws s.data h)
  · intro s h
    have h2 : ∀ c ∈ trimL s.data, isDC c = true ∨ c = '.' :=
      fun c hc => h c (mem_trimL s.data c hc)
    obtain ⟨t1, t2, t3, t4, t5, t6⟩ := currencyTests_false (trimL s.data) h2
    exact parsePriceL_none_of_tests s.data t1 t2 t3 t4 t5 t6
  · intro s r h
    exact (parsePriceL_some s.data r h).1

/-- Witness for C4: a concrete whitespace-only string, a concrete bare
number, and a concrete accepted price whose amount the invariant shows
positive. -/
theorem parsePrice_rejections_witness :
    parsePrice "   " = none ∧ parsePrice "1,234.56" = none ∧
    0 < (PriceRec.mk 20 "INR" "rs 20".data).amount :=
  ⟨parsePrice_rejections.2.1 "   " (by decide),
   parsePrice_rejections.2.2.1 "1,234.56" (by decide),
   parsePrice_rejections.2.2.2.1 "rs 20" ⟨20, "INR", "rs 20".data⟩ (by decide)⟩

/-! ## Claim C5: classify failure characterization -/

/-- C5 counterexample — the claim fails on the code in both directions it
asserts: `"100$"` has its only currency symbol NOT at the start of the
string, yet it parses (the `$` test `/\$/` is unanchored and `parseFloat`
reads the leading `100`); `"₹50abc"` has trailing non-numeric characters
after the digits, yet it parses as INR 50 (`parseFloat` ignores trailing
junk). -/
theorem parsePrice_failure_charact_counterexample :
    parsePrice "100$" = some ⟨100, "USD", "100$".data⟩ ∧
    parsePrice "₹50abc" = some ⟨50, "INR", "₹50abc".data⟩ :=
  ⟨by decide, by decide⟩

/-- C5 amended — `parsePrice` returns no-match whenever no currency token
is detected at all: the trimmed string does not start with `₹`, `Rs`, or
`INR` (case-insensitive), contains no `$` anywhere, and does not start with
`USD` or `US$` (case-insensitive).  (Unlike the original claim, a `$` that
is not at the start still counts as detection, and extra non-numeric
characters after the digits do not cause rejection.) -/
theorem parsePrice_none_of_noCurrencyToken :
    ∀ s : String,
      startsRupee (trimL s.data) = false → startsRs (trimL s.data) = false →
      startsINR (trimL s.data) = false → hasDollar (trimL s.data) = false →
      startsUSD (trimL s.data) = false → startsUSdollar (trimL s.data) = false →
      parsePrice s = none :=
  fun s h1 h2 h3 h4 h5 h6 => parsePriceL_none_of_tests s.data h1 h2 h3 h4 h5 h6

/-- Witness for the amended C5 at a concrete currency-free string. -/
theorem parsePrice_none_of_noCurrencyToken_witness :
    parsePrice "hello" = none :=
  parsePrice_none_of_noCurrencyToken "hello" (by decide) (by decide) (by decide)
    (by decide) (by decide) (by decide)

/-! ## Claim C9: trim invariance of classification -/

/-- C9 — `parsePrice` is trim-invariant: the result on any string equals
the result on its trimmed form (leading/trailing whitespace never affects
currency or amount), and the `original` field of any successful result is
exactly the trimmed input text. -/
theorem parsePrice_trim_invariance :
    (∀ s : String, parsePrice s = parsePriceL (trimL s.data)) ∧
    (∀ (s : String) (r : PriceRec), parsePrice s = some r →
      r.original = trimL s.data) := by
  constructor
  · intro s
    exact (parsePriceL_trim s.data).symm
  · intro s r h
    exact (parsePriceL_some s.data r h).2

/-- Witness for C9 at a concrete padded price string. -/
theorem parsePrice_trim_invariance_witness :
    parsePrice "  ₹50.00  " = parsePriceL (trimL "  ₹50.00  ".data) ∧
    (PriceRec.mk 50 "INR" "₹50.00".data).original = trimL "  ₹50.00  ".data :=
  ⟨parsePrice_trim_invariance.1 "  ₹50.00  ",
   parsePrice_trim_invariance.2 "  ₹50.00  " ⟨50, "INR", "₹50.00".data⟩ (by decide)⟩

/-! ## The combined pattern (`PriceDetector.init`, converters.js 143–158)

`(₹\s*[\d,]+(?:\.\d{1,2})?|Rs\.?\s*[\d,]+(?:\.\d{1,2})?|INR\s*[\d,]+(?:\.\d{1,2})?|(?<![A-Z])\$\s*[\d,]+(?:\.\d{1,2})?|USD\s*[\d,]+(?:\.\d{1,2})?|US\$\s*[\d,]+(?:\.\d{1,2})?)`
with flags `gi`.  Each function below returns the number of characters the
alternative consumes at the current position (`none` = no match there).
Under the `i` flag the lookbehind class `[A-Z]` matches all ASCII letters;
only the bare-`$` alternative carries it. -/

/-- Length consumed by the greedy optional fraction `(?:\.\d{1,2})?`. -/
def fracLen (l : List Char) : Nat :=
  match l with
  | '.' :: r =>
    let d := cw isDigitC r
    if d = 0 then 0 else 1 + min 2 d
  | _ => 0

/-- Length consumed by `\s*[\d,]+(?:\.\d{1,2})?` (the shared tail of every
alternative), `none` when the mandatory `[\d,]+` cannot match. -/
def numTail (l : List Char) : Option Nat :=
  let w := cw isWS l
  let r := l.drop w
  let d := cw isDC r
  if d = 0 then none else some (w + d + fracLen (r.drop d))

/-- `₹\s*[\d,]+(?:\.\d{1,2})?` -/
def alt1 (l : List Char) : Option Nat :=
  match l with
  | '₹' :: r => (numTail r).map (fun n => 1 + n)
  | _ => none

/-- After `Rs`: the greedy `\.?` followed by the tail; the dot is retried
as unconsumed when the tail fails after it (the fallback can never succeed
on a leading `.`, but it is modelled faithfully). -/
def rsTail (r : List Char) : Option Nat :=
  match r with
  | '.' :: r2 =>
    match numTail r2 with
    | some n => some (1 + n)
    | none => numTail r
  | _ => numTail r

/-- `Rs\.?\s*[\d,]+(?:\.\d{1,2})?` (case-insensitive). -/
def alt2 (l : List Char) : Option Nat :=
  match l with
  | c1 :: c2 :: r =>
    if isRch c1 && isSch c2 then (rsTail r).map (fun n => 2 + n) else none
  | _ => none

/-- The common shape of the three-character-marker alternatives: a
predicate on the three leading characters, then the numeric tail. -/
def alt3of (g : Char → Char → Char → Bool) (l : List Char) : Option Nat :=
  match l with
  | c1 :: c2 :: c3 :: r =>
    if g c1 c2 c3 then (numTail r).map (fun n => 3 + n) else none
  | _ => none

/-- `INR\s*[\d,]+(?:\.\d{1,2})?` (case-insensitive). -/
def alt3 : List Char → Option Nat :=
  alt3of (fun a b c => isIch a && isNch b && isRch c)

/-- `(?<![A-Z])\$\s*[\d,]+(?:\.\d{1,2})?` — `prevL` says whether the
character before the current position is an ASCII letter. -/
def alt4 (prevL : Bool) (l : List Char) : Option Nat :=
  match l with
  | '$' :: r => if prevL then none else (numTail r).map (fun n => 1 + n)
  | _ => none

/-- `USD\s*[\d,]+(?:\.\d{1,2})?` (case-insensitive). -/
def alt5 : List Char → Option Nat :=
  alt3of (fun a b c => isUch a && isSch b && isDch c)

/-- `US\$\s*[\d,]+(?:\.\d{1,2})?` (case-insensitive; the `$` itself has
no case variant). -/
def alt6 : List Char → Option Nat :=
  alt3of (fun a b c => isUch a && isSch b && c = '$')

/-- The combined alternation at one position: the regex engine tries the
alternatives in source order and commits to the first that matches; `0`
means no alternative matches at this position. -/
def matchLen (prevL : Bool) (l : List Char) : Nat :=
  (((((alt1 l).or (alt2 l)).or (alt3 l)).or (alt4 prevL l)).or
    ((alt5 l).or (alt6 l))).getD 0

/-! ## The exec scan (`processTextNode`, converters.js 220–275) -/

/-- One fragment of the scanned text: a character the pattern skipped, or a
whole match of the combined pattern. -/
inductive Chunk where
  | plain (c : Char)
  | matched (cs : List Char)
deriving DecidableEq, Repr

def chunkText : Chunk → List Char
  | .plain c => [c]
  | .matched cs => cs

def chunksText (l : List Chunk) : List Char := (l.map chunkText).flatten

/-- The lookbehind state after consuming `l` (whether the last character
consumed so far is an ASCII letter); `b` when nothing was consumed. -/
def lastState (b : Bool) (l : List Char) : Bool :=
  match l.getLast? with
  | some c => isAZ c
  | none => b

/-- Fuel-indexed scanner (structural recursion, so that the kernel can
evaluate it); the fuel only needs to dominate the list length, since every
step consumes at least one character. -/
def scanChunksF : Nat → Bool → List Char → List Chunk
  | 0, _, _ => []
  | _ + 1, _, [] => []
  | f + 1, b, c :: t =>
    match matchLen b (c :: t) with
    | 0 => .plain c :: scanChunksF f (isAZ c) t
    | Nat.succ m =>
      .matched (c :: t.take m) :: scanChunksF f (lastState b (c :: t.take m)) (t.drop m)

/-- The `exec` loop of a global regex: at each position try the combined
alternation; on success consume the whole match, otherwise advance one
character.  (`matchLen` is at least 2 whenever it is nonzero, so the
JS empty-match special case cannot arise.) -/
def scanChunks (b : Bool) (s : List Char) : List Chunk :=
  scanChunksF s.length b s

theorem scanChunksF_fuel (f : Nat) :
    ∀ (g : Nat) (b : Bool) (s : List Char), s.length ≤ f → s.length ≤ g →
      scanChunksF f b s = scanChunksF g b s := by
  induction f with
  | zero =>
    intro g b s h0 _
    have hs : s = [] := List.eq_nil_of_length_eq_zero (Nat.le_zero.mp h0)
    subst hs
    cases g <;> rfl
  | succ f ih =>
    intro g b s h hg
    cases s with
    | nil => cases g <;> rfl
    | cons c t =>
      cases g with
      | zero => simp at hg
      | succ g2 =>
        rw [scanChunksF, scanChunksF]
        cases hm : matchLen b (c :: t) with
        | zero =>
          simp only [hm]
          rw [ih g2 (isAZ c) t (by simpa using h) (by simpa using hg)]
        | succ m =>
          simp only [hm]
          rw [ih g2 (lastState b (c :: t.take m)) (t.drop m)
            (by simp at h ⊢; omega) (by simp at hg ⊢; omega)]

theorem scanChunks_nil (b : Bool) : scanChunks b [] = [] := rfl

theorem scanChunks_cons (b : Bool) (c : Char) (t : List Char) :
    scanChunks b (c :: t) =
      match matchLen b (c :: t) with
      | 0 => Chunk.plain c :: scanChunks (isAZ c) t
      | Nat.succ m =>
        Chunk.matched (c :: t.take m) ::
          scanChunks (lastState b (c :: t.take m)) (t.drop m) := by
  show scanChunksF (c :: t).length b (c :: t) = _
  rw [List.length_cons, scanChunksF]
  cases hm : matchLen b (c :: t) with
  | zero => simp only [hm]; rfl
  | succ m =>
    simp only [hm]
    rw [show scanChunks (lastState b (c :: t.take m)) (t.drop m) =
      scanChunksF (t.drop m).length (lastState b (c :: t.take m)) (t.drop m) from rfl]
    rw [scanChunksF_fuel t.length (t.drop m).length (lastState b (c :: t.take m))
      (t.drop m) (by simp) (by simp)]

/-- An output segment of the annotation pass: untouched text, or a marked
price span (the span carries `data-price-detected="true"`, the amount and
the currency, and its text is the matched substring). -/
inductive Seg where
  | plain (cs : List Char)
  | marked (cs : List Char) (p : PriceRec)
deriving DecidableEq, Repr

def segText : Seg → List Char
  | .plain cs => cs
  | .marked cs _ => cs

def segsText (l : List Seg) : List Char := (l.map segText).flatten

def isMarkedSeg : Seg → Bool
  | .plain _ => false
  | .marked _ _ => true

/-- Segment construction of `processTextNode`: matches rejected by
`parsePrice` stay part of the surrounding plain text (`buf` is the plain
text accumulated since the last accepted match); an accepted match becomes
a marked span preceded by the pending plain text (emitted only when
nonempty, as in the `m.start > lastIndex` guard). -/
def segsCore : List Chunk → List Char → List Seg
  | [], buf => if buf = [] then [] else [.plain buf]
  | .plain c :: rest, buf => segsCore rest (buf ++ [c])
  | .matched m :: rest, buf =>
    match parsePriceL m with
    | some p =>
      (if buf = [] then ([] : List Seg) else [.plain buf]) ++
        Seg.marked m p :: segsCore rest []
    | none => segsCore rest (buf ++ m)

def annotateL (l : List Char) : List Seg := segsCore (scanChunks false l) []

/-- `annotate` (§4.3): the pure text-to-segments transform performed by
`processTextNode` on a text run. -/
def annotate (t : String) : List Seg := annotateL t.data

/-- Start/end offsets and text of each marked segment, `pos` being the
offset of the current suffix. -/
def markedSpans : List Seg → Nat → List (Nat × Nat × List Char)
  | [], _ => []
  | .plain cs :: r, pos => markedSpans r (pos + cs.length)
  | .marked cs _ :: r, pos => (pos, pos + cs.length, cs) :: markedSpans r (pos + cs.length)

/-- The second scan over an already-annotated run: a marked span carries
`data-price-detected` and is skipped by the traversal
(`closest('[data-price-detected]')`); a plain text node is re-annotated,
`processTextNode` leaving it untouched when no match parses
(`matches.length === 0`). -/
def reannotateSeg : Seg → List Seg
  | .marked cs p => [.marked cs p]
  | .plain cs =>
    if (annotateL cs).any isMarkedSeg then annotateL cs else [.plain cs]

def reannotate (l : List Seg) : List Seg := (l.map reannotateSeg).flatten

/-! ## Round-trip: the chunks of a scan concatenate to the input -/

theorem chunksText_cons (ch : Chunk) (rest : List Chunk) :
    chunksText (ch :: rest) = chunkText ch ++ chunksText rest := by
  simp [chunksText]

theorem chunksText_scan_aux (n : Nat) :
    ∀ (b : Bool) (s : List Char), s.length ≤ n →
      chunksText (scanChunks b s) = s := by
  induction n with
  | zero =>
    intro b s h
    have hs : s = [] := List.eq_nil_of_length_eq_zero (Nat.le_zero.mp h)
    subst hs
    rfl
  | succ n ih =>
    intro b s h
    cases s with
    | nil => rfl
    | cons c t =>
      rw [scanChunks_cons]
      cases hm : matchLen b (c :: t) with
      | zero =>
        simp only
        rw [chunksText_cons]
        simp [chunkText, ih (isAZ c) t (by simpa using h)]
      | succ m =>
        simp only
        rw [chunksText_cons]
        simp only [chunkText]
        rw [ih (lastState b (c :: t.take m)) (t.drop m) (by simp at h ⊢; omega)]
        simp [List.take_append_drop]

theorem chunksText_scan (b : Bool) (s : List Char) :
    chunksText (scanChunks b s) = s :=
  chunksText_scan_aux s.length b s (Nat.le_refl _)

theorem segsText_cons (sg : Seg) (rest : List Seg) :
    segsText (sg :: rest) = segText sg ++ segsText rest := by
  simp [segsText]

theorem segsText_append (a b : List Seg) :
    segsText (a ++ b) = segsText a ++ segsText b := by
  simp [segsText]

theorem segsText_segsCore (C : List Chunk) (buf : List Char) :
    segsText (segsCore C buf) = buf ++ chunksText C := by
  induction C generalizing buf with
  | nil =>
    by_cases h : buf = [] <;> simp [segsCore, h, segsText, segText, chunksText]
  | cons ch rest ih =>
    cases ch with
    | plain c =>
      rw [segsCore, ih, chunksText_cons]
      simp [chunkText]
    | matched m =>
      cases hp : parsePriceL m with
      | some p =>
        rw [segsCore]
        rw [hp]
        rw [segsText_append, segsText_cons, ih [], chunksText_cons]
        by_cases h : buf = [] <;> simp [h, segsText, segText, chunkText]
      | none =>
        rw [segsCore]
        rw [hp]
        rw [ih, chunksText_cons]
        simp [chunkText]

theorem matched_scan_ne_nil_aux (n : Nat) :
    ∀ (b : Bool) (s : List Char) (cs : List Char), s.length ≤ n →
      Chunk.matched cs ∈ scanChunks b s → cs ≠ [] := by
  induction n with
  | zero =>
    intro b s cs h hm
    have hs : s = [] := List.eq_nil_of_length_eq_zero (Nat.le_zero.mp h)
    subst hs
    simp [scanChunks_nil] at hm
  | succ n ih =>
    intro b s cs h hmem
    cases s with
    | nil => simp [scanChunks_nil] at hmem
    | cons c t =>
      rw [scanChunks_cons] at hmem
      cases hm : matchLen b (c :: t) with
      | zero =>
        rw [hm] at hmem
        simp only at hmem
        rcases List.mem_cons.mp hmem with h1 | h2
        · exact absurd h1 (by simp)
        · exact ih (isAZ c) t cs (by simpa using h) h2
      | succ m =>
        rw [hm] at hmem
        simp only at hmem
        rcases List.mem_cons.mp hmem with h1 | h2
        · cases h1
          simp
        · exact ih (lastState b (c :: t.take m)) (t.drop m) cs
            (by simp at h ⊢; omega) h2

theorem matched_scan_ne_nil (b : Bool) (s : List Char) (cs : List Char)
    (h : Chunk.matched cs ∈ scanChunks b s) : cs ≠ [] :=
  matched_scan_ne_nil_aux s.length b s cs (Nat.le_refl _) h

theorem marked_mem_segsCore (C : List Chunk) (buf : List Char)
    (cs : List Char) (p : PriceRec)
    (h : Seg.marked cs p ∈ segsCore C buf) : Chunk.matched cs ∈ C := by
  induction C generalizing buf with
  | nil =>
    rw [segsCore] at h
    split at h <;> simp_all
  | cons ch rest ih =>
    cases ch with
    | plain c =>
      rw [segsCore] at h
      exact List.mem_cons_of_mem _ (ih (buf ++ [c]) h)
    | matched m =>
      rw [segsCore] at h
      cases hp : parsePriceL m with
      | some q =>
        rw [hp] at h
        rcases List.mem_append.mp h with h1 | h2
        · split at h1 <;> simp_all
        · rcases List.mem_cons.mp h2 with h3 | h4
          · cases h3
            simp
          · exact List.mem_cons_of_mem _ (ih [] h4)
      | none =>
        rw [hp] at h
        exact List.mem_cons_of_mem _ (ih (buf ++ m) h)

/-! ## Marked-span positions: ordered, disjoint, and slices of the input -/

theorem markedSpans_lower (segs : List Seg) (pos : Nat) :
    ∀ sp ∈ markedSpans segs pos, pos ≤ sp.1 := by
  induction segs generalizing pos with
  | nil => simp [markedSpans]
  | cons sg rest ih =>
    cases sg with
    | plain cs =>
      intro sp hsp
      rw [markedSpans] at hsp
      have := ih (pos + cs.length) sp hsp
      omega
    | marked cs p =>
      intro sp hsp
      rw [markedSpans] at hsp
      rcases List.mem_cons.mp hsp with rfl | h
      · simp
      · have := ih (pos + cs.length) sp h
        omega

theorem markedSpans_chain (segs : List Seg) (pos : Nat) :
    List.Chain' (fun a b : Nat × Nat × List Char => a.2.1 ≤ b.1)
      (markedSpans segs pos) := by
  induction segs generalizing pos with
  | nil => simp [markedSpans]
  | cons sg rest ih =>
    cases sg with
    | plain cs =>
      rw [markedSpans]
      exact ih (pos + cs.length)
    | marked cs p =>
      rw [markedSpans]
      rw [List.chain'_cons']
      refine ⟨?_, ih (pos + cs.length)⟩
      intro sp hsp
      have h2 := markedSpans_lower rest (pos + cs.length) sp
        (List.mem_of_mem_head? hsp)
      exact h2

theorem markedSpans_slice (segs : List Seg) (pre : List Char)
    (hne : ∀ cs p, Seg.marked cs p ∈ segs → cs ≠ []) :
    ∀ sp ∈ markedSpans segs pre.length,
      sp.1 < sp.2.1 ∧ sp.2.1 ≤ pre.length + (segsText segs).length ∧
      sp.2.2 = ((pre ++ segsText segs).drop sp.1).take (sp.2.1 - sp.1) := by
  induction segs generalizing pre with
  | nil => simp [markedSpans]
  | cons sg rest ih =>
    cases sg with
    | plain cs =>
      intro sp hsp
      rw [markedSpans] at hsp
      have hsp2 : sp ∈ markedSpans rest (pre ++ cs).length := by
        simpa [List.length_append] using hsp
      have hne2 : ∀ cs2 p2, Seg.marked cs2 p2 ∈ rest → cs2 ≠ [] :=
        fun cs2 p2 hm => hne cs2 p2 (List.mem_cons_of_mem _ hm)
      have := ih (pre ++ cs) hne2 sp hsp2
      rw [segsText_cons]
      simp only [segText] at this ⊢
      simpa [List.append_assoc, List.length_append, Nat.add_assoc] using this
    | marked cs p =>
      intro sp hsp
      rw [markedSpans] at hsp
      rcases List.mem_cons.mp hsp with rfl | h
      · have hcs : cs ≠ [] := hne cs p (by simp)
        have hlen : 0 < cs.length := List.length_pos.mpr hcs
        refine ⟨?_, ?_, ?_⟩
        · show pre.length < pre.length + cs.length
          omega
        · rw [segsText_cons]
          show pre.length + cs.length ≤
            pre.length + (segText (Seg.marked cs p) ++ segsText rest).length
          simp only [segText, List.length_append]
          omega
        · rw [segsText_cons]
          show cs = ((pre ++ (segText (Seg.marked cs p) ++ segsText rest)).drop
            pre.length).take (pre.length + cs.length - pre.length)
          simp only [segText]
          rw [List.drop_left]
          have h3 : pre.length + cs.length - pre.length = cs.length := by omega
          rw [h3]
          exact (List.take_left cs (segsText rest)).symm
      · have hsp2 : sp ∈ markedSpans rest (pre ++ cs).length := by
          simpa [List.length_append] using h
        have hne2 : ∀ cs2 p2, Seg.marked cs2 p2 ∈ rest → cs2 ≠ [] :=
          fun cs2 p2 hm => hne cs2 p2 (List.mem_cons_of_mem _ hm)
        have := ih (pre ++ cs) hne2 sp hsp2
        rw [segsText_cons]
        simp only [segText] at this ⊢
        simpa [List.append_assoc, List.length_append, Nat.add_assoc] using this

/-! ## Claim C1: round-trip reconstruction of the annotation pass -/

/-- C1 — For every input run, `annotate` (the segment construction of
`processTextNode`) produces segments whose concatenated literal text is the
original run exactly; the marked segments' spans are ordered and pairwise
non-overlapping (each span ends no later than the next begins), and each
marked segment's text is precisely the slice of the original run at its
span, which is nonempty and lies within the run. -/
theorem annotate_segments_roundtrip :
    ∀ t : String,
      segsText (annotate t) = t.data ∧
      List.Chain' (fun a b : Nat × Nat × List Char => a.2.1 ≤ b.1)
        (markedSpans (annotate t) 0) ∧
      ∀ sp ∈ markedSpans (annotate t) 0,
        sp.1 < sp.2.1 ∧ sp.2.1 ≤ t.data.length ∧
        sp.2.2 = (t.data.drop sp.1).take (sp.2.1 - sp.1) := by
  intro t
  have hrt : segsText (annotate t) = t.data := by
    show segsText (segsCore (scanChunks false t.data) []) = t.data
    rw [segsText_segsCore, chunksText_scan]
    rfl
  refine ⟨hrt, markedSpans_chain _ 0, ?_⟩
  intro sp hsp
  have hne : ∀ cs p, Seg.marked cs p ∈ annotate t → cs ≠ [] := by
    intro cs p hm
    exact matched_scan_ne_nil false t.data cs (marked_mem_segsCore _ [] cs p hm)
  have h := markedSpans_slice (annotate t) [] hne sp (by simpa using hsp)
  rw [hrt] at h
  simpa using h

/-- Witness for C1 at a run with two prices: the segments reconstruct the
run and the first marked span (₹100 at offsets 9–13) is a slice of it. -/
theorem annotate_segments_roundtrip_witness :
    segsText (annotate "Compare: ₹100 vs ₹8,300") =
      "Compare: ₹100 vs ₹8,300".data ∧
    (9 < 13 ∧ 13 ≤ "Compare: ₹100 vs ₹8,300".data.length ∧
      "₹100".data = ("Compare: ₹100 vs ₹8,300".data.drop 9).take (13 - 9)) :=
  ⟨(annotate_segments_roundtrip "Compare: ₹100 vs ₹8,300").1,
   (annotate_segments_roundtrip "Compare: ₹100 vs ₹8,300").2.2
     (9, 13, "₹100".data) (by decide)⟩

/-! ## Claim C6: word-boundary exclusion (violated by the code) -/

/-- C6 failing input — the negative lookbehind `(?<![A-Z])` guards only the
bare-`$` alternative of the combined pattern; the letter-form alternatives
`Rs`/`INR`/`USD` have no word-boundary guard at all.  Inside
`"12 hours 20 minutes"` the substring `"rs 20"` of `"hours"` therefore
matches, `parsePrice` accepts it as INR 20, and the annotation pass emits a
marked segment — exactly what the claim (and the repository's own detector
tests) say must not happen. -/
theorem combined_pattern_matches_inside_word :
    annotate "12 hours 20 minutes" =
      [Seg.plain "12 hou".data,
       Seg.marked "rs 20".data ⟨20, "INR", "rs 20".data⟩,
       Seg.plain " minutes".data] ∧
    (annotate "12 hours 20 minutes").any isMarkedSeg = true ∧
    matchLen true "rs 20 minutes".data = 5 :=
  ⟨by decide, by decide, by decide⟩

/-! ## Structured price elements
(`PriceDetector.shouldSkipElement` 195–213 and
`PriceDetector.processStructuredPriceElement` 322–370) -/

/-- The slice of DOM element state the detector reads and writes: tag,
computed style, the three data attributes it may set, classes,
editability, text content, and the text of the nearest
`[class*="price"]` ancestor-or-self (for the context rule), if any. -/
structure Element where
  tagName : String
  displayNone : Bool
  visibilityHidden : Bool
  priceDetected : Bool
  amountAttr : Option ℚ
  currencyAttr : Option String
  classes : List String
  contentEditable : Bool
  textContent : String
  closestPriceClassText : Option String
deriving DecidableEq, Repr

def skipTags : List String :=
  ["SCRIPT", "STYLE", "NOSCRIPT", "IFRAME", "TEXTAREA", "INPUT", "SELECT"]

/-- `PriceDetector.shouldSkipElement` on a (non-null) element. -/
def shouldSkipElement (e : Element) : Bool :=
  skipTags.contains e.tagName || e.displayNone || e.visibilityHidden ||
  e.priceDetected || e.contentEditable

/-- The capture `\s*([\d,]+(?:\.\d{1,2})?)` shared by the extraction
regexes: the captured group (without the leading whitespace). -/
def capNum (l : List Char) : Option (List Char) :=
  let w := cw isWS l
  let r := l.drop w
  let d := cw isDC r
  if d = 0 then none
  else some (r.take d ++ (r.drop d).take (fracLen (r.drop d)))

/-- One position of `/(?:₹|Rs\.?)\s*([\d,]+(?:\.\d{1,2})?)/i`. -/
def tryINRCapAt (l : List Char) : Option (List Char) :=
  match l with
  | '₹' :: r => capNum r
  | c1 :: c2 :: r =>
    if isRch c1 && isSch c2 then
      match r with
      | '.' :: r2 =>
        match capNum r2 with
        | some cap => some cap
        | none => capNum r
      | _ => capNum r
    else none
  | _ => none

/-- One position of `/\$\s*([\d,]+(?:\.\d{1,2})?)/` (no flags, no
lookbehind). -/
def tryUSDCapAt (l : List Char) : Option (List Char) :=
  match l with
  | '$' :: r => capNum r
  | _ => none

/-- `String.match` with a non-global regex: the leftmost position where
the whole pattern matches, returning its capture. -/
def findFirst (f : List Char → Option (List Char)) : List Char → Option (List Char)
  | [] => none
  | c :: t =>
    match f (c :: t) with
    | some cap => some cap
    | none => findFirst f t

/-- `/Rs\.?/i.test(text)` — an `Rs` token anywhere (the optional dot never
affects the unanchored test). -/
def hasRsToken : List Char → Bool
  | c1 :: c2 :: t => (isRch c1 && isSch c2) || hasRsToken (c2 :: t)
  | _ => false

/-- `text.includes('₹') || /Rs\.?/i.test(text) || (element.closest &&
/₹|Rs\.?/i.test(closest('[class*="price"]')?.textContent || ''))`. -/
def rupeeCtx (text : List Char) (ctx : Option (List Char)) : Bool :=
  text.contains '₹' || hasRsToken text ||
  (match ctx with
   | some c => c.contains '₹' || hasRsToken c
   | none => false)

/-- `/^[\d,]+(?:\.\d{1,2})?$/` as a whole-string test (the greedy parse is
equivalent here: shrinking a quantifier only exposes characters that still
fail at the anchor). -/
def fullBareNumber (l : List Char) : Bool :=
  let d := cw isDC l
  !(d = 0) && ((l.drop d).drop (fracLen (l.drop d))).isEmpty

/-- The prioritized extraction rules of `processStructuredPriceElement`:
(1) a `₹`/`Rs`-adjacent number anywhere, (2) a bare full-string number with
a rupee symbol in the element or its price-class context, (3) a
`$`-adjacent number anywhere; the first applicable rule fixes the currency
and its (possibly `NaN`) parsed amount. -/
def structuredCurrencyAmount (text : List Char) (ctx : Option (List Char)) :
    Option (String × Option ℚ) :=
  match findFirst tryINRCapAt text with
  | some cap => some ("INR", parseFloatJs (cap.filter (fun c => c ≠ ',')))
  | none =>
    if rupeeCtx text ctx && fullBareNumber text then
      some ("INR", parseFloatJs (text.filter (fun c => c ≠ ',')))
    else
      match findFirst tryUSDCapAt text with
      | some cap => some ("USD", parseFloatJs (cap.filter (fun c => c ≠ ',')))
      | none => none

/-- `extractFromElement` (§4.4): the amount/currency the element yields,
after the final `!currency || !amount || isNaN(amount) || amount <= 0`
guard; `none` when the element is to be left untouched. -/
def extractFromElement (e : Element) : Option (ℚ × String) :=
  let text := trimL e.textContent.data
  if text = [] then none
  else
    match structuredCurrencyAmount text (e.closestPriceClassText.map String.data) with
    | none => none
    | some (_, none) => none
    | some (cur, some a) => if a ≤ 0 then none else some (a, cur)

/-- The writes performed on success: `data-price-detected="true"`,
`data-amount`, `data-currency`, and the `currency-converter-price` class. -/
def markElement (e : Element) (a : ℚ) (cur : String) : Element :=
  { e with priceDetected := true, amountAttr := some a,
           currencyAttr := some cur,
           classes := e.classes ++ ["currency-converter-price"] }

/-- `PriceDetector.processStructuredPriceElement` as a state transform. -/
def processStructuredPriceElement (e : Element) : Element :=
  if e.priceDetected then e
  else if shouldSkipElement e then e
  else
    match extractFromElement e with
    | none => e
    | some (a, cur) => markElement e a cur

/-! ## Claim C7: structured-element skip and atomicity -/

/-- C7 — `processStructuredPriceElement` leaves an element completely
unmodified (no attribute set, no class added) when it is already marked
detected, when it fails the scanning-eligibility predicate, or when no
extraction rule yields a positive well-formed amount; every extracted
amount is strictly positive, and whenever the element is modified at all,
the change is exactly the marking write for an extracted positive amount
and currency. -/
theorem processStructured_frame :
    (∀ e : Element, e.priceDetected = true →
      processStructuredPriceElement e = e) ∧
    (∀ e : Element, shouldSkipElement e = true →
      processStructuredPriceElement e = e) ∧
    (∀ e : Element, extractFromElement e = none →
      processStructuredPriceElement e = e) ∧
    (∀ (e : Element) (a : ℚ) (cur : String),
      extractFromElement e = some (a, cur) → 0 < a) ∧
    (∀ e : Element, processStructuredPriceElement e ≠ e →
      ∃ a cur, extractFromElement e = some (a, cur) ∧ 0 < a ∧
        processStructuredPriceElement e = markElement e a cur) := by
  have hpos : ∀ (e : Element) (a : ℚ) (cur : String),
      extractFromElement e = some (a, cur) → 0 < a := by
    intro e a cur h
    simp only [extractFromElement] at h
    split at h
    · exact absurd h (by simp)
    · split at h
      · exact absurd h (by simp)
      · exact absurd h (by simp)
      · rename_i hle
        split at h
        · exact absurd h (by simp)
        · rename_i hle2
          cases h
          exact lt_of_not_le hle2
  refine ⟨?_, ?_, ?_, hpos, ?_⟩
  · intro e h
    simp [processStructuredPriceElement, h]
  · intro e h
    simp [processStructuredPriceElement, h]
  · intro e h
    simp only [processStructuredPriceElement, h]
    split <;> try rfl
    split <;> rfl
  · intro e h
    by_cases h1 : e.priceDetected = true
    · exact absurd (by simp [processStructuredPriceElement, h1]) h
    · by_cases h2 : shouldSkipElement e = true
      · exact absurd (by simp [processStructuredPriceElement, h1, h2]) h
      · cases hex : extractFromElement e with
        | none =>
          exact absurd (by simp [processStructuredPriceElement, h1, h2, hex]) h
        | some pr =>
          obtain ⟨a, cur⟩ := pr
          exact ⟨a, cur, rfl, hpos e a cur hex,
            by simp [processStructuredPriceElement, h1, h2, hex]⟩

/-- Witness for C7: a detected element, an ineligible (SCRIPT) element and
a priceless element are all returned unchanged; a concrete extraction is
positive. -/
theorem processStructured_frame_witness :
    processStructuredPriceElement
        (Element.mk "DIV" false false true none none [] false "₹100" none) =
      Element.mk "DIV" false false true none none [] false "₹100" none ∧
    processStructuredPriceElement
        (Element.mk "SCRIPT" false false false none none [] false "₹100" none) =
      Element.mk "SCRIPT" false false false none none [] false "₹100" none ∧
    processStructuredPriceElement
        (Element.mk "DIV" false false false none none [] false "no price" none) =
      Element.mk "DIV" false false false none none [] false "no price" none ∧
    (0 : ℚ) < 100 :=
  ⟨processStructured_frame.1 _ (by decide),
   processStructured_frame.2.1 _ (by decide),
   processStructured_frame.2.2.1 _ (by decide),
   processStructured_frame.2.2.2.1
     (Element.mk "DIV" false false false none none [] false "₹100" none)
     100 "INR" (by decide)⟩

/-! ## Toolkit for greedy-run lengths (`cw`) under truncation/extension

These support the idempotence proof: a match found by the original scan
is re-found unchanged when the text is cut at the original chunk
boundaries, because every quantifier of the pattern stops at the same
place. -/

theorem cw_le (p : Char → Bool) (l : List Char) : cw p l ≤ l.length :=
  (List.takeWhile_sublist p).length_le

theorem cw_append (p : Char → Bool) (x y : List Char) :
    cw p (x ++ y) = if cw p x = x.length then x.length + cw p y else cw p x := by
  unfold cw
  rw [List.takeWhile_append]
  split <;> simp [List.length_append]

theorem cw_mono_append (p : Char → Bool) (x y : List Char) :
    cw p x ≤ cw p (x ++ y) := by
  rw [cw_append]
  split
  · omega
  · exact Nat.le_refl _

/-- When the run of `x ++ y` stops strictly inside `x`, it is the run of
`x`; when it is bounded by `x`'s length, it is still the run of `x`. -/
theorem cw_append_eq_of_le (p : Char → Bool) (x y : List Char)
    (h : cw p (x ++ y) ≤ x.length) : cw p x = cw p (x ++ y) := by
  rw [cw_append] at h ⊢
  split at h
  · rename_i heq
    split
    · have h0 : cw p y = 0 := by omega
      omega
    · rename_i hne
      exact absurd heq hne
  · rename_i hne
    rw [if_neg hne]

theorem take_cw_eq_takeWhile (p : Char → Bool) (l : List Char) :
    l.take (cw p l) = l.takeWhile p := by
  induction l with
  | nil => rfl
  | cons c t ih =>
    by_cases h : p c
    · simp [cw, List.takeWhile_cons, h] at ih ⊢
      exact ih
    · simp [cw, List.takeWhile_cons, h]

theorem mem_take_cw (p : Char → Bool) (r : List Char) (k : Nat)
    (hk : k ≤ cw p r) : ∀ c ∈ r.take k, p c = true := by
  intro c hc
  have hr : r.take k = (r.takeWhile p).take k := by
    conv =>
      lhs
      rw [← List.takeWhile_append_dropWhile p r]
    exact List.take_append_of_le_length hk
  rw [hr] at hc
  exact List.mem_takeWhile_imp (List.mem_of_mem_take hc)

theorem fracLen_nil : fracLen [] = 0 := rfl

theorem fracLen_dot (r : List Char) :
    fracLen ('.' :: r) =
      if cw isDigitC r = 0 then 0 else 1 + min 2 (cw isDigitC r) := rfl

theorem fracLen_cons_ne (c : Char) (r : List Char) (h : c ≠ '.') :
    fracLen (c :: r) = 0 := by
  unfold fracLen
  split
  · rename_i heq
    cases heq
    exact absurd rfl h
  · rfl

theorem fracLen_le (l : List Char) : fracLen l ≤ l.length := by
  cases l with
  | nil => simp [fracLen_nil]
  | cons c r =>
    by_cases hc : c = '.'
    · subst hc
      rw [fracLen_dot]
      have := cw_le isDigitC r
      split
      · omega
      · simp only [List.length_cons]
        omega
    · rw [fracLen_cons_ne c r hc]
      omega

/-- Truncating after the fraction cannot change it. -/
theorem fracLen_trunc (y ext : List Char) (h : fracLen (y ++ ext) ≤ y.length) :
    fracLen y = fracLen (y ++ ext) := by
  cases y with
  | nil =>
    simp only [List.nil_append] at h ⊢
    simp only [List.length_nil, Nat.le_zero] at h
    rw [fracLen_nil, h]
  | cons c y2 =>
    by_cases hc : c = '.'
    · subst hc
      rw [List.cons_append] at h ⊢
      rw [fracLen_dot] at h ⊢
      rw [fracLen_dot]
      simp only [List.length_cons] at h
      by_cases hd : cw isDigitC (y2 ++ ext) = 0
      · have hd2 : cw isDigitC y2 = 0 :=
          Nat.le_zero.mp (hd ▸ cw_mono_append isDigitC y2 ext)
        simp [hd, hd2]
      · rw [if_neg hd] at h
        have hcwle := cw_le isDigitC y2
        have hcwa := cw_append isDigitC y2 ext
        have hxy : cw isDigitC y2 ≠ 0 ∧
            min 2 (cw isDigitC y2) = min 2 (cw isDigitC (y2 ++ ext)) := by
          by_cases h2 : 2 ≤ cw isDigitC (y2 ++ ext)
          · have hy2 : 2 ≤ y2.length := by omega
            have h3 : 2 ≤ cw isDigitC y2 := by
              split at hcwa
              · omega
              · omega
            constructor
            · omega
            · omega
          · have hd1 : 1 ≤ cw isDigitC (y2 ++ ext) := Nat.one_le_iff_ne_zero.mpr hd
            split at hcwa
            · rename_i heq
              constructor
              · omega
              · omega
            · constructor
              · omega
              · omega
        rw [if_neg hxy.1, hxy.2, if_neg hd]
    · rw [fracLen_cons_ne c y2 hc]
      rw [List.cons_append, fracLen_cons_ne c (y2 ++ ext) hc]

theorem numTail_pos (l : List Char) (n : Nat) (h : numTail l = some n) :
    1 ≤ n := by
  simp only [numTail] at h
  split at h
  · exact absurd h (by simp)
  · rename_i hd
    cases h
    omega

theorem numTail_le (l : List Char) (n : Nat) (h : numTail l = some n) :
    n ≤ l.length := by
  simp only [numTail] at h
  split at h
  · exact absurd h (by simp)
  · rename_i hd
    cases h
    have h1 := cw_le isWS l
    have h2 := cw_le isDC (l.drop (cw isWS l))
    have h3 := fracLen_le ((l.drop (cw isWS l)).drop (cw isDC (l.drop (cw isWS l))))
    simp only [List.length_drop] at h2 h3
    omega

theorem numTail_ext (l ext : List Char) (n : Nat) (h : numTail l = some n) :
    ∃ n2, numTail (l ++ ext) = some n2 := by
  simp only [numTail] at h
  by_cases hd : cw isDC (l.drop (cw isWS l)) = 0
  · rw [if_pos hd] at h
    exact absurd h (by simp)
  · have hww : cw isWS l ≠ l.length := by
      intro he
      rw [he, List.drop_length] at hd
      exact hd rfl
    have hwle := cw_le isWS l
    have hw2 : cw isWS (l ++ ext) = cw isWS l := by
      rw [cw_append, if_neg hww]
    have hdr : (l ++ ext).drop (cw isWS l) = l.drop (cw isWS l) ++ ext :=
      List.drop_append_of_le_length hwle
    have hd2 : cw isDC (l.drop (cw isWS l) ++ ext) ≠ 0 := by
      have := cw_mono_append isDC (l.drop (cw isWS l)) ext
      omega
    simp only [numTail]
    rw [hw2, hdr, if_neg hd2]
    exact ⟨_, rfl⟩

theorem numTail_trunc (l ext : List Char) (n : Nat)
    (h : numTail (l ++ ext) = some n) (hle : n ≤ l.length) :
    numTail l = some n := by
  simp only [numTail] at h ⊢
  split at h
  · exact absurd h (by simp)
  · rename_i hd
    cases h
    have hwle := cw_le isWS (l ++ ext)
    have hdle := cw_le isDC ((l ++ ext).drop (cw isWS (l ++ ext)))
    have hfle0 := fracLen_le
      (((l ++ ext).drop (cw isWS (l ++ ext))).drop (cw isDC ((l ++ ext).drop (cw isWS (l ++ ext)))))
    have hwlt : cw isWS (l ++ ext) < l.length := by omega
    have hw : cw isWS l = cw isWS (l ++ ext) :=
      cw_append_eq_of_le isWS l ext (by omega)
    have hdr : (l ++ ext).drop (cw isWS (l ++ ext)) =
        l.drop (cw isWS (l ++ ext)) ++ ext :=
      List.drop_append_of_le_length (by omega)
    rw [hdr] at hd hle ⊢
    have hxlen : (l.drop (cw isWS (l ++ ext))).length =
        l.length - cw isWS (l ++ ext) := List.length_drop _ _
    have hdbound : cw isDC (l.drop (cw isWS (l ++ ext)) ++ ext) ≤
        (l.drop (cw isWS (l ++ ext))).length := by
      rw [hxlen]
      omega
    have hdx : cw isDC (l.drop (cw isWS (l ++ ext))) =
        cw isDC (l.drop (cw isWS (l ++ ext)) ++ ext) :=
      cw_append_eq_of_le isDC _ ext hdbound
    have hfr2 : (l.drop (cw isWS (l ++ ext)) ++ ext).drop
        (cw isDC (l.drop (cw isWS (l ++ ext)) ++ ext)) =
        (l.drop (cw isWS (l ++ ext))).drop
          (cw isDC (l.drop (cw isWS (l ++ ext)) ++ ext)) ++ ext :=
      List.drop_append_of_le_length hdbound
    rw [hfr2] at hle ⊢
    have hflen : ((l.drop (cw isWS (l ++ ext))).drop
        (cw isDC (l.drop (cw isWS (l ++ ext)) ++ ext))).length =
        (l.drop (cw isWS (l ++ ext))).length -
          cw isDC (l.drop (cw isWS (l ++ ext)) ++ ext) := List.length_drop _ _
    have hfbound : fracLen ((l.drop (cw isWS (l ++ ext))).drop
        (cw isDC (l.drop (cw isWS (l ++ ext)) ++ ext)) ++ ext) ≤
        ((l.drop (cw isWS (l ++ ext))).drop
          (cw isDC (l.drop (cw isWS (l ++ ext)) ++ ext))).length := by
      rw [hflen, hxlen]
      omega
    have hfr : fracLen ((l.drop (cw isWS (l ++ ext))).drop
        (cw isDC (l.drop (cw isWS (l ++ ext)) ++ ext))) =
        fracLen ((l.drop (cw isWS (l ++ ext))).drop
          (cw isDC (l.drop (cw isWS (l ++ ext)) ++ ext)) ++ ext) :=
      fracLen_trunc _ ext hfbound
    rw [hw, hdx, if_neg hd, ← hfr]

theorem fracLen_mem (y : List Char) :
    ∀ c ∈ y.take (fracLen y), (isDigitC c || c = '.') = true := by
  cases y with
  | nil => simp
  | cons c0 r =>
    by_cases hc : c0 = '.'
    · subst hc
      rw [fracLen_dot]
      split
      · simp
      · rename_i hd
        intro c hc2
        rw [Nat.add_comm 1 (min 2 (cw isDigitC r))] at hc2
        rw [List.take_succ_cons] at hc2
        have hmin : min 2 (cw isDigitC r) ≤ cw isDigitC r := Nat.min_le_right _ _
        rcases List.mem_cons.mp hc2 with rfl | hmem
        · simp
        · have := mem_take_cw isDigitC r (min 2 (cw isDigitC r)) hmin c hmem
          simp [this]
    · rw [fracLen_cons_ne c0 r hc]
      simp

theorem numTail_mem (l : List Char) (n : Nat) (h : numTail l = some n) :
    ∀ c ∈ l.take n, (isWS c || isDC c || c = '.') = true := by
  simp only [numTail] at h
  split at h
  · exact absurd h (by simp)
  · rename_i hd
    cases h
    intro c hc
    rw [List.take_add] at hc
    rcases List.mem_append.mp hc with h12 | h3
    · rw [List.take_add] at h12
      rcases List.mem_append.mp h12 with h1 | h2
      · have := mem_take_cw isWS l (cw isWS l) (Nat.le_refl _) c h1
        simp [this]
      · have := mem_take_cw isDC (l.drop (cw isWS l))
          (cw isDC (l.drop (cw isWS l))) (Nat.le_refl _) c h2
        simp [this]
    · rw [← List.drop_drop (cw isDC (l.drop (cw isWS l))) (cw isWS l) l] at h3
      have h5 := fracLen_mem
        ((l.drop (cw isWS l)).drop (cw isDC (l.drop (cw isWS l)))) c h3
      rcases Bool.or_eq_true_iff.mp h5 with h6 | h6
      · simp [isDC, h6]
      · simp [h6]

theorem numTail_dot_none (x : List Char) : numTail ('.' :: x) = none := by
  have hw : cw isWS ('.' :: x) = 0 := by
    unfold cw
    rw [List.takeWhile_cons_of_neg (by decide)]
    rfl
  have hd : cw isDC ('.' :: x) = 0 := by
    unfold cw
    rw [List.takeWhile_cons_of_neg (by decide)]
    rfl
  simp only [numTail, hw, List.drop_zero, hd]
  rfl

theorem rsTail_pos (r : List Char) (n : Nat) (h : rsTail r = some n) :
    1 ≤ n := by
  unfold rsTail at h
  split at h
  · split at h
    · cases h
      omega
    · exact numTail_pos _ n h
  · exact numTail_pos _ n h

theorem rsTail_le (r : List Char) (n : Nat) (h : rsTail r = some n) :
    n ≤ r.length := by
  unfold rsTail at h
  split at h
  · rename_i r2
    split at h
    · rename_i m hm
      cases h
      have := numTail_le r2 m hm
      simp
      omega
    · have := numTail_le _ n h
      exact this
  · exact numTail_le _ n h

theorem rsTail_ext (r ext : List Char) (n : Nat) (h : rsTail r = some n) :
    ∃ n2, rsTail (r ++ ext) = some n2 := by
  unfold rsTail at h
  split at h
  · rename_i r2
    rw [List.cons_append]
    unfold rsTail
    split at h
    · rename_i m hm
      obtain ⟨m2, hm2⟩ := numTail_ext r2 ext m hm
      simp only [hm2]
      exact ⟨_, rfl⟩
    · rw [numTail_dot_none] at h
      exact absurd h (by simp)
  · rename_i hshape
    cases r with
    | nil => exact absurd h (by simp [numTail, cw])
    | cons c r2 =>
      have hc : c ≠ '.' := by
        intro hcc
        subst hcc
        exact hshape r2 rfl
      rw [List.cons_append]
      obtain ⟨m2, hm2⟩ := numTail_ext (c :: r2) ext n h
      rw [List.cons_append] at hm2
      unfold rsTail
      split
      · rename_i r3 heq
        injection heq with h1 _
        exact absurd h1 hc
      · exact ⟨m2, hm2⟩

theorem rsTail_trunc (r ext : List Char) (n : Nat)
    (h : rsTail (r ++ ext) = some n) (hle : n ≤ r.length) :
    rsTail r = some n := by
  cases r with
  | nil =>
    have := rsTail_pos ext n (by simpa using h)
    simp at hle
    omega
  | cons c r2 =>
    by_cases hc : c = '.'
    · subst hc
      rw [List.cons_append] at h
      unfold rsTail at h ⊢
      simp only at h ⊢
      cases hx : numTail (r2 ++ ext) with
      | some m =>
        rw [hx] at h
        cases h
        have hmle : m ≤ r2.length := by
          simp at hle
          omega
        rw [numTail_trunc r2 ext m hx hmle]
      | none =>
        rw [hx, numTail_dot_none] at h
        exact absurd h (by simp)
    · rw [List.cons_append] at h
      have hsh : rsTail (c :: (r2 ++ ext)) = numTail (c :: (r2 ++ ext)) := by
        unfold rsTail
        split
        · rename_i r3 heq
          injection heq with h1 _
          exact absurd h1 hc
        · rfl
      rw [hsh] at h
      rw [← List.cons_append] at h
      have := numTail_trunc (c :: r2) ext n h (by simpa using hle)
      unfold rsTail
      split
      · rename_i r3 heq
        injection heq with h1 _
        exact absurd h1 hc
      · exact this

theorem rsTail_mem (r : List Char) (n : Nat) (h : rsTail r = some n) :
    ∀ c ∈ r.take n, (isWS c || isDC c || c = '.') = true := by
  unfold rsTail at h
  split at h
  · rename_i r2
    split at h
    · rename_i m hm
      cases h
      intro c hc
      rw [Nat.add_comm 1 m, List.take_succ_cons] at hc
      rcases List.mem_cons.mp hc with rfl | hmem
      · simp
      · exact numTail_mem r2 m hm c hmem
    · exact numTail_mem _ n h
  · exact numTail_mem _ n h

theorem wsdcdot_not_az (c : Char) (h : (isWS c || isDC c || c = '.') = true) :
    isAZ c = false := by
  simp only [Bool.or_eq_true] at h
  rcases h with (h | h) | h
  · unfold isWS at h
    unfold isAZ
    simp only [Bool.or_eq_true, Bool.and_eq_true, decide_eq_true_eq] at h
    simp only [Bool.or_eq_false_iff, Bool.and_eq_false_iff,
      decide_eq_false_iff_not]
    omega
  · unfold isDC isDigitC at h
    simp only [Bool.or_eq_true, Bool.and_eq_true, decide_eq_true_eq] at h
    rcases h with h | h
    · unfold isAZ
      simp only [Bool.or_eq_false_iff, Bool.and_eq_false_iff,
        decide_eq_false_iff_not]
      omega
    · have : c = ',' := by simpa using h
      subst this
      decide
  · have : c = '.' := by simpa using h
    subst this
    decide

/-- The last character of `marker ++ (tail-match)` is the last character of
the tail region, which is never an ASCII letter. -/
theorem last_nonletter_generic (marker r : List Char) (m : Nat)
    (hmem : ∀ c ∈ r.take m, (isWS c || isDC c || c = '.') = true)
    (hm1 : 1 ≤ m) (hr : r ≠ []) :
    ∃ c, ((marker ++ r).take (marker.length + m)).getLast? = some c ∧
      isAZ c = false := by
  have htake : (marker ++ r).take (marker.length + m) = marker ++ r.take m := by
    rw [List.take_add]
    rw [List.take_left, List.drop_left]
  rw [htake]
  have hne : r.take m ≠ [] := by
    rw [Ne, List.take_eq_nil_iff]
    push_neg
    exact ⟨by omega, hr⟩
  rw [List.getLast?_append_of_ne_nil marker hne]
  obtain ⟨c, hc⟩ := Option.isSome_iff_exists.mp (List.getLast?_isSome.mpr hne)
  refine ⟨c, hc, ?_⟩
  exact wsdcdot_not_az c (hmem c (List.mem_of_mem_getLast? hc))

theorem numTail_ne_nil (n : Nat) (h : numTail [] = some n) : False := by
  simp only [numTail] at h
  simp [cw] at h

theorem rsTail_ne_nil (n : Nat) (h : rsTail [] = some n) : False := by
  unfold rsTail at h
  exact numTail_ne_nil n h

/-! ### Properties of the six alternatives: length bound, stability under
extension of the text, stability under truncation at or after the match
end, and a non-letter last character. -/

theorem alt1_rupee (r : List Char) :
    alt1 ('₹' :: r) = (numTail r).map (fun x => 1 + x) := rfl

theorem alt1_some (l : List Char) (n : Nat) (h : alt1 l = some n) :
    ∃ r, l = '₹' :: r ∧ (numTail r).map (fun x => 1 + x) = some n := by
  unfold alt1 at h
  split at h
  · rename_i r
    exact ⟨r, rfl, h⟩
  · exact absurd h (by simp)

theorem alt1_le (l : List Char) (n : Nat) (h : alt1 l = some n) :
    n ≤ l.length := by
  obtain ⟨r, rfl, h2⟩ := alt1_some l n h
  cases hx : numTail r with
  | none =>
    rw [hx] at h2
    exact absurd h2 (by simp)
  | some m =>
    rw [hx] at h2
    simp at h2
    have := numTail_le r m hx
    simp only [List.length_cons]
    omega

theorem alt1_ext (l ext : List Char) (n : Nat) (h : alt1 l = some n) :
    ∃ n2, alt1 (l ++ ext) = some n2 := by
  obtain ⟨r, rfl, h2⟩ := alt1_some l n h
  cases hx : numTail r with
  | none =>
    rw [hx] at h2
    exact absurd h2 (by simp)
  | some m =>
    obtain ⟨m2, hm2⟩ := numTail_ext r ext m hx
    rw [List.cons_append, alt1_rupee, hm2]
    exact ⟨_, rfl⟩

theorem alt1_trunc (l ext : List Char) (n : Nat)
    (h : alt1 (l ++ ext) = some n) (hle : n ≤ l.length) : alt1 l = some n := by
  obtain ⟨r2, heq, h2⟩ := alt1_some (l ++ ext) n h
  cases hx : numTail r2 with
  | none =>
    rw [hx] at h2
    exact absurd h2 (by simp)
  | some m =>
    rw [hx] at h2
    simp at h2
    cases l with
    | nil =>
      have := numTail_pos r2 m hx
      simp at hle
      omega
    | cons c t =>
      rw [List.cons_append] at heq
      injection heq with hc ht
      subst hc
      subst ht
      have hmle : m ≤ t.length := by
        simp only [List.length_cons] at hle
        omega
      rw [alt1_rupee, numTail_trunc t ext m hx hmle]
      simp [h2]

theorem alt1_last (l : List Char) (n : Nat) (h : alt1 l = some n) :
    ∃ c, (l.take n).getLast? = some c ∧ isAZ c = false := by
  obtain ⟨r, rfl, h2⟩ := alt1_some l n h
  cases hx : numTail r with
  | none =>
    rw [hx] at h2
    exact absurd h2 (by simp)
  | some m =>
    rw [hx] at h2
    simp at h2
    have hr : r ≠ [] := by
      intro hr0
      subst hr0
      exact numTail_ne_nil m hx
    have := last_nonletter_generic ['₹'] r m (numTail_mem r m hx)
      (numTail_pos r m hx) hr
    rw [← h2]
    exact this

theorem alt2_mk (c1 c2 : Char) (r : List Char) (h : (isRch c1 && isSch c2) = true) :
    alt2 (c1 :: c2 :: r) = (rsTail r).map (fun x => 2 + x) := by
  unfold alt2
  simp [h]

theorem alt2_some (l : List Char) (n : Nat) (h : alt2 l = some n) :
    ∃ c1 c2 r, l = c1 :: c2 :: r ∧ (isRch c1 && isSch c2) = true ∧
      (rsTail r).map (fun x => 2 + x) = some n := by
  unfold alt2 at h
  split at h
  · rename_i c1 c2 r
    split at h
    · rename_i hm
      exact ⟨c1, c2, r, rfl, hm, h⟩
    · exact absurd h (by simp)
  · exact absurd h (by simp)

theorem alt2_le (l : List Char) (n : Nat) (h : alt2 l = some n) :
    n ≤ l.length := by
  obtain ⟨c1, c2, r, rfl, hm, h2⟩ := alt2_some l n h
  cases hx : rsTail r with
  | none =>
    rw [hx] at h2
    exact absurd h2 (by simp)
  | some m =>
    rw [hx] at h2
    simp at h2
    have := rsTail_le r m hx
    simp only [List.length_cons]
    omega

theorem alt2_ext (l ext : List Char) (n : Nat) (h : alt2 l = some n) :
    ∃ n2, alt2 (l ++ ext) = some n2 := by
  obtain ⟨c1, c2, r, rfl, hm, h2⟩ := alt2_some l n h
  cases hx : rsTail r with
  | none =>
    rw [hx] at h2
    exact absurd h2 (by simp)
  | some m =>
    obtain ⟨m2, hm2⟩ := rsTail_ext r ext m hx
    rw [List.cons_append, List.cons_append, alt2_mk c1 c2 (r ++ ext) hm, hm2]
    exact ⟨_, rfl⟩

theorem alt2_trunc (l ext : List Char) (n : Nat)
    (h : alt2 (l ++ ext) = some n) (hle : n ≤ l.length) : alt2 l = some n := by
  obtain ⟨c1, c2, r2, heq, hm, h2⟩ := alt2_some (l ++ ext) n h
  cases hx : rsTail r2 with
  | none =>
    rw [hx] at h2
    exact absurd h2 (by simp)
  | some m =>
    rw [hx] at h2
    simp at h2
    have hpos := rsTail_pos r2 m hx
    match l, heq, hle with
    | [], heq, hle =>
      simp at hle
      omega
    | [c], heq, hle =>
      simp at hle
      omega
    | d1 :: d2 :: t, heq, hle =>
      rw [List.cons_append, List.cons_append] at heq
      injection heq with e1 heq2
      injection heq2 with e2 e3
      subst e1
      subst e2
      subst e3
      have hmle : m ≤ t.length := by
        simp only [List.length_cons] at hle
        omega
      rw [alt2_mk d1 d2 t hm, rsTail_trunc t ext m hx hmle]
      simp [h2]

theorem alt2_last (l : List Char) (n : Nat) (h : alt2 l = some n) :
    ∃ c, (l.take n).getLast? = some c ∧ isAZ c = false := by
  obtain ⟨c1, c2, r, rfl, hm, h2⟩ := alt2_some l n h
  cases hx : rsTail r with
  | none =>
    rw [hx] at h2
    exact absurd h2 (by simp)
  | some m =>
    rw [hx] at h2
    simp at h2
    have hr : r ≠ [] := by
      intro hr0
      subst hr0
      exact rsTail_ne_nil m hx
    have := last_nonletter_generic [c1, c2] r m (rsTail_mem r m hx)
      (rsTail_pos r m hx) hr
    rw [← h2]
    exact this

theorem alt3of_mk (g : Char → Char → Char → Bool) (c1 c2 c3 : Char)
    (r : List Char) (h : g c1 c2 c3 = true) :
    alt3of g (c1 :: c2 :: c3 :: r) = (numTail r).map (fun x => 3 + x) := by
  unfold alt3of
  simp [h]

theorem alt3of_some (g : Char → Char → Char → Bool) (l : List Char) (n : Nat)
    (h : alt3of g l = some n) :
    ∃ c1 c2 c3 r, l = c1 :: c2 :: c3 :: r ∧ g c1 c2 c3 = true ∧
      (numTail r).map (fun x => 3 + x) = some n := by
  unfold alt3of at h
  split at h
  · rename_i c1 c2 c3 r
    split at h
    · rename_i hm
      exact ⟨c1, c2, c3, r, rfl, hm, h⟩
    · exact absurd h (by simp)
  · exact absurd h (by simp)

theorem alt3of_le (g : Char → Char → Char → Bool) (l : List Char) (n : Nat)
    (h : alt3of g l = some n) : n ≤ l.length := by
  obtain ⟨c1, c2, c3, r, rfl, hm, h2⟩ := alt3of_some g l n h
  cases hx : numTail r with
  | none =>
    rw [hx] at h2
    exact absurd h2 (by simp)
  | some m =>
    rw [hx] at h2
    simp at h2
    have := numTail_le r m hx
    simp only [List.length_cons]
    omega

theorem alt3of_ext (g : Char → Char → Char → Bool) (l ext : List Char) (n : Nat)
    (h : alt3of g l = some n) : ∃ n2, alt3of g (l ++ ext) = some n2 := by
  obtain ⟨c1, c2, c3, r, rfl, hm, h2⟩ := alt3of_some g l n h
  cases hx : numTail r with
  | none =>
    rw [hx] at h2
    exact absurd h2 (by simp)
  | some m =>
    obtain ⟨m2, hm2⟩ := numTail_ext r ext m hx
    rw [List.cons_append, List.cons_append, List.cons_append,
      alt3of_mk g c1 c2 c3 (r ++ ext) hm, hm2]
    exact ⟨_, rfl⟩

theorem alt3of_trunc (g : Char → Char → Char → Bool) (l ext : List Char)
    (n : Nat) (h : alt3of g (l ++ ext) = some n) (hle : n ≤ l.length) :
    alt3of g l = some n := by
  obtain ⟨c1, c2, c3, r2, heq, hm, h2⟩ := alt3of_some g (l ++ ext) n h
  cases hx : numTail r2 with
  | none =>
    rw [hx] at h2
    exact absurd h2 (by simp)
  | some m =>
    rw [hx] at h2
    simp at h2
    have hpos := numTail_pos r2 m hx
    match l, heq, hle with
    | [], heq, hle =>
      simp at hle
      omega
    | [c], heq, hle =>
      simp at hle
      omega
    | [c, d], heq, hle =>
      simp at hle
      omega
    | d1 :: d2 :: d3 :: t, heq, hle =>
      rw [List.cons_append, List.cons_append, List.cons_append] at heq
      injection heq with e1 heq2
      injection heq2 with e2 heq3
      injection heq3 with e3 e4
      subst e1
      subst e2
      subst e3
      subst e4
      have hmle : m ≤ t.length := by
        simp only [List.length_cons] at hle
        omega
      rw [alt3of_mk g d1 d2 d3 t hm, numTail_trunc t ext m hx hmle]
      simp [h2]

theorem alt3of_last (g : Char → Char → Char → Bool) (l : List Char) (n : Nat)
    (h : alt3of g l = some n) :
    ∃ c, (l.take n).getLast? = some c ∧ isAZ c = false := by
  obtain ⟨c1, c2, c3, r, rfl, hm, h2⟩ := alt3of_some g l n h
  cases hx : numTail r with
  | none =>
    rw [hx] at h2
    exact absurd h2 (by simp)
  | some m =>
    rw [hx] at h2
    simp at h2
    have hr : r ≠ [] := by
      intro hr0
      subst hr0
      exact numTail_ne_nil m hx
    have := last_nonletter_generic [c1, c2, c3] r m (numTail_mem r m hx)
      (numTail_pos r m hx) hr
    rw [← h2]
    exact this

theorem alt4_mk (r : List Char) :
    alt4 false ('$' :: r) = (numTail r).map (fun x => 1 + x) := rfl

theorem alt4_some (b : Bool) (l : List Char) (n : Nat) (h : alt4 b l = some n) :
    ∃ r, l = '$' :: r ∧ b = false ∧
      (numTail r).map (fun x => 1 + x) = some n := by
  unfold alt4 at h
  split at h
  · rename_i r
    split at h
    · exact absurd h (by simp)
    · rename_i hb
      exact ⟨r, rfl, Bool.not_eq_true b ▸ Bool.of_not_eq_true hb, h⟩
  · exact absurd h (by simp)

theorem alt4_le (b : Bool) (l : List Char) (n : Nat) (h : alt4 b l = some n) :
    n ≤ l.length := by
  obtain ⟨r, rfl, rfl, h2⟩ := alt4_some b l n h
  cases hx : numTail r with
  | none =>
    rw [hx] at h2
    exact absurd h2 (by simp)
  | some m =>
    rw [hx] at h2
    simp at h2
    have := numTail_le r m hx
    simp only [List.length_cons]
    omega

theorem alt4_ext (b : Bool) (l ext : List Char) (n : Nat)
    (h : alt4 b l = some n) : ∃ n2, alt4 b (l ++ ext) = some n2 := by
  obtain ⟨r, rfl, rfl, h2⟩ := alt4_some b l n h
  cases hx : numTail r with
  | none =>
    rw [hx] at h2
    exact absurd h2 (by simp)
  | some m =>
    obtain ⟨m2, hm2⟩ := numTail_ext r ext m hx
    rw [List.cons_append, alt4_mk, hm2]
    exact ⟨_, rfl⟩

theorem alt4_trunc (b : Bool) (l ext : List Char) (n : Nat)
    (h : alt4 b (l ++ ext) = some n) (hle : n ≤ l.length) :
    alt4 b l = some n := by
  obtain ⟨r2, heq, rfl, h2⟩ := alt4_some b (l ++ ext) n h
  cases hx : numTail r2 with
  | none =>
    rw [hx] at h2
    exact absurd h2 (by simp)
  | some m =>
    rw [hx] at h2
    simp at h2
    cases l with
    | nil =>
      have := numTail_pos r2 m hx
      simp at hle
      omega
    | cons c t =>
      rw [List.cons_append] at heq
      injection heq with hc ht
      subst hc
      subst ht
      have hmle : m ≤ t.length := by
        simp only [List.length_cons] at hle
        omega
      rw [alt4_mk, numTail_trunc t ext m hx hmle]
      simp [h2]

theorem alt4_last (b : Bool) (l : List Char) (n : Nat) (h : alt4 b l = some n) :
    ∃ c, (l.take n).getLast? = some c ∧ isAZ c = false := by
  obtain ⟨r, rfl, rfl, h2⟩ := alt4_some b l n h
  cases hx : numTail r with
  | none =>
    rw [hx] at h2
    exact absurd h2 (by simp)
  | some m =>
    rw [hx] at h2
    simp at h2
    have hr : r ≠ [] := by
      intro hr0
      subst hr0
      exact numTail_ne_nil m hx
    have := last_nonletter_generic ['$'] r m (numTail_mem r m hx)
      (numTail_pos r m hx) hr
    rw [← h2]
    exact this


theorem alt3_le (l : List Char) (n : Nat) : alt3 l = some n → n ≤ l.length :=
  alt3of_le _ l n

theorem alt3_ext (l ext : List Char) (n : Nat) :
    alt3 l = some n → ∃ n2, alt3 (l ++ ext) = some n2 :=
  alt3of_ext _ l ext n

theorem alt3_trunc (l ext : List Char) (n : Nat) :
    alt3 (l ++ ext) = some n → n ≤ l.length → alt3 l = some n :=
  alt3of_trunc _ l ext n

theorem alt3_last (l : List Char) (n : Nat) :
    alt3 l = some n → ∃ c, (l.take n).getLast? = some c ∧ isAZ c = false :=
  alt3of_last _ l n

theorem alt5_le (l : List Char) (n : Nat) : alt5 l = some n → n ≤ l.length :=
  alt3of_le _ l n

theorem alt5_ext (l ext : List Char) (n : Nat) :
    alt5 l = some n → ∃ n2, alt5 (l ++ ext) = some n2 :=
  alt3of_ext _ l ext n

theorem alt5_trunc (l ext : List Char) (n : Nat) :
    alt5 (l ++ ext) = some n → n ≤ l.length → alt5 l = some n :=
  alt3of_trunc _ l ext n

theorem alt5_last (l : List Char) (n : Nat) :
    alt5 l = some n → ∃ c, (l.take n).getLast? = some c ∧ isAZ c = false :=
  alt3of_last _ l n

theorem alt6_le (l : List Char) (n : Nat) : alt6 l = some n → n ≤ l.length :=
  alt3of_le _ l n

theorem alt6_ext (l ext : List Char) (n : Nat) :
    alt6 l = some n → ∃ n2, alt6 (l ++ ext) = some n2 :=
  alt3of_ext _ l ext n

theorem alt6_trunc (l ext : List Char) (n : Nat) :
    alt6 (l ++ ext) = some n → n ≤ l.length → alt6 l = some n :=
  alt3of_trunc _ l ext n

theorem alt6_last (l : List Char) (n : Nat) :
    alt6 l = some n → ∃ c, (l.take n).getLast? = some c ∧ isAZ c = false :=
  alt3of_last _ l n

/-! ### The combined alternation under truncation at the match boundary -/

theorem matchLen_le (b : Bool) (l : List Char) : matchLen b l ≤ l.length := by
  unfold matchLen
  cases h1 : alt1 l with
  | some n => simpa using alt1_le l n h1
  | none =>
  cases h2 : alt2 l with
  | some n => simpa using alt2_le l n h2
  | none =>
  cases h3 : alt3 l with
  | some n => simpa using alt3_le l n h3
  | none =>
  cases h4 : alt4 b l with
  | some n => simpa using alt4_le b l n h4
  | none =>
  cases h5 : alt5 l with
  | some n => simpa using alt5_le l n h5
  | none =>
  cases h6 : alt6 l with
  | some n => simpa using alt6_le l n h6
  | none => simp

theorem matchLen_trunc (b : Bool) (s ext : List Char)
    (h : matchLen b (s ++ ext) ≤ s.length) :
    matchLen b s = matchLen b (s ++ ext) := by
  unfold matchLen at h ⊢
  cases h1 : alt1 (s ++ ext) with
  | some n =>
    rw [h1] at h
    simp only [Option.or_some, Option.getD_some] at h
    rw [alt1_trunc s ext n h1 h]
    simp
  | none =>
    rw [h1] at h
    have h1t : alt1 s = none := by
      cases hx : alt1 s with
      | none => rfl
      | some m =>
        obtain ⟨m2, hm2⟩ := alt1_ext s ext m hx
        rw [hm2] at h1
        exact absurd h1 (by simp)
    rw [h1t]
    simp only [Option.none_or] at h ⊢
    cases h2 : alt2 (s ++ ext) with
    | some n =>
      rw [h2] at h
      simp only [Option.or_some, Option.getD_some] at h
      rw [alt2_trunc s ext n h2 h]
      simp
    | none =>
      rw [h2] at h
      have h2t : alt2 s = none := by
        cases hx : alt2 s with
        | none => rfl
        | some m =>
          obtain ⟨m2, hm2⟩ := alt2_ext s ext m hx
          rw [hm2] at h2
          exact absurd h2 (by simp)
      rw [h2t]
      simp only [Option.none_or] at h ⊢
      cases h3 : alt3 (s ++ ext) with
      | some n =>
        rw [h3] at h
        simp only [Option.or_some, Option.getD_some] at h
        rw [alt3_trunc s ext n h3 h]
        simp
      | none =>
        rw [h3] at h
        have h3t : alt3 s = none := by
          cases hx : alt3 s with
          | none => rfl
          | some m =>
            obtain ⟨m2, hm2⟩ := alt3_ext s ext m hx
            rw [hm2] at h3
            exact absurd h3 (by simp)
        rw [h3t]
        simp only [Option.none_or] at h ⊢
        cases h4 : alt4 b (s ++ ext) with
        | some n =>
          rw [h4] at h
          simp only [Option.or_some, Option.getD_some] at h
          rw [alt4_trunc b s ext n h4 h]
          simp
        | none =>
          rw [h4] at h
          have h4t : alt4 b s = none := by
            cases hx : alt4 b s with
            | none => rfl
            | some m =>
              obtain ⟨m2, hm2⟩ := alt4_ext b s ext m hx
              rw [hm2] at h4
              exact absurd h4 (by simp)
          rw [h4t]
          simp only [Option.none_or] at h ⊢
          cases h5 : alt5 (s ++ ext) with
          | some n =>
            rw [h5] at h
            simp only [Option.or_some, Option.getD_some] at h
            rw [alt5_trunc s ext n h5 h]
            simp
          | none =>
            rw [h5] at h
            have h5t : alt5 s = none := by
              cases hx : alt5 s with
              | none => rfl
              | some m =>
                obtain ⟨m2, hm2⟩ := alt5_ext s ext m hx
                rw [hm2] at h5
                exact absurd h5 (by simp)
            rw [h5t]
            simp only [Option.none_or] at h ⊢
            cases h6 : alt6 (s ++ ext) with
            | some n =>
              rw [h6] at h
              simp only [Option.or_some, Option.getD_some] at h
              rw [alt6_trunc s ext n h6 h]
            | none =>
              rw [h6] at h
              have h6t : alt6 s = none := by
                cases hx : alt6 s with
                | none => rfl
                | some m =>
                  obtain ⟨m2, hm2⟩ := alt6_ext s ext m hx
                  rw [hm2] at h6
                  exact absurd h6 (by simp)
              rw [h6t]

theorem matchLen_last (b : Bool) (l : List Char) (n : Nat)
    (h : matchLen b l = n) (hn : n ≠ 0) :
    ∃ c, (l.take n).getLast? = some c ∧ isAZ c = false := by
  unfold matchLen at h
  cases h1 : alt1 l with
  | some m =>
    rw [h1] at h
    simp at h
    exact h ▸ alt1_last l m h1
  | none =>
  rw [h1] at h
  simp only [Option.none_or] at h
  cases h2 : alt2 l with
  | some m =>
    rw [h2] at h
    simp at h
    exact h ▸ alt2_last l m h2
  | none =>
  rw [h2] at h
  simp only [Option.none_or] at h
  cases h3 : alt3 l with
  | some m =>
    rw [h3] at h
    simp at h
    exact h ▸ alt3_last l m h3
  | none =>
  rw [h3] at h
  simp only [Option.none_or] at h
  cases h4 : alt4 b l with
  | some m =>
    rw [h4] at h
    simp at h
    exact h ▸ alt4_last b l m h4
  | none =>
  rw [h4] at h
  simp only [Option.none_or] at h
  cases h5 : alt5 l with
  | some m =>
    rw [h5] at h
    simp at h
    exact h ▸ alt5_last l m h5
  | none =>
  rw [h5] at h
  simp only [Option.none_or] at h
  cases h6 : alt6 l with
  | some m =>
    rw [h6] at h
    simp at h
    exact h ▸ alt6_last l m h6
  | none =>
    rw [h6] at h
    simp at h
    exact absurd h.symm hn

/-! ### Scan decomposition and truncation at chunk boundaries -/

theorem lastState_append (b : Bool) (x y : List Char) :
    lastState b (x ++ y) = lastState (lastState b x) y := by
  unfold lastState
  rw [List.getLast?_append]
  cases hy : y.getLast? <;> simp [Option.or]

theorem lastState_single (b : Bool) (c : Char) :
    lastState b [c] = isAZ c := rfl

theorem matched_scan_last_aux (n : Nat) :
    ∀ (b : Bool) (s cs : List Char), s.length ≤ n →
      Chunk.matched cs ∈ scanChunks b s →
      ∃ c, cs.getLast? = some c ∧ isAZ c = false := by
  induction n with
  | zero =>
    intro b s cs h hm
    have hs : s = [] := List.eq_nil_of_length_eq_zero (Nat.le_zero.mp h)
    subst hs
    simp [scanChunks_nil] at hm
  | succ n ih =>
    intro b s cs h hmem
    cases s with
    | nil => simp [scanChunks_nil] at hmem
    | cons c t =>
      rw [scanChunks_cons] at hmem
      cases hm : matchLen b (c :: t) with
      | zero =>
        rw [hm] at hmem
        simp only at hmem
        rcases List.mem_cons.mp hmem with h1 | h2
        · exact absurd h1 (by simp)
        · exact ih (isAZ c) t cs (by simpa using h) h2
      | succ m =>
        rw [hm] at hmem
        simp only at hmem
        rcases List.mem_cons.mp hmem with h1 | h2
        · cases h1
          have hlast := matchLen_last b (c :: t) (m + 1) hm (by omega)
          rw [List.take_succ_cons] at hlast
          exact hlast
        · exact ih (lastState b (c :: t.take m)) (t.drop m) cs
            (by simp at h ⊢; omega) h2

theorem matched_scan_last (b : Bool) (s cs : List Char)
    (h : Chunk.matched cs ∈ scanChunks b s) :
    ∃ c, cs.getLast? = some c ∧ isAZ c = false :=
  matched_scan_last_aux s.length b s cs (Nat.le_refl _) h

theorem scan_split (C1 : List Chunk) :
    ∀ (b : Bool) (s : List Char) (C2 : List Chunk),
      scanChunks b s = C1 ++ C2 →
      scanChunks (lastState b (chunksText C1)) (s.drop (chunksText C1).length) = C2 := by
  induction C1 with
  | nil =>
    intro b s C2 h
    simpa [chunksText, lastState] using h
  | cons ch C1' ih =>
    intro b s C2 h
    cases s with
    | nil =>
      rw [scanChunks_nil] at h
      exact absurd h (by simp)
    | cons c t =>
      rw [scanChunks_cons] at h
      cases hm : matchLen b (c :: t) with
      | zero =>
        rw [hm] at h
        simp only [List.cons_append] at h
        injection h with hch htail
        subst hch
        have := ih (isAZ c) t C2 htail
        rw [chunksText_cons]
        simp only [chunkText]
        rw [lastState_append, lastState_single]
        rw [List.length_append, List.length_cons]
        simpa [Nat.add_comm] using this
      | succ m =>
        rw [hm] at h
        simp only [List.cons_append] at h
        injection h with hch htail
        subst hch
        have := ih (lastState b (c :: t.take m)) (t.drop m) C2 htail
        rw [chunksText_cons]
        simp only [chunkText]
        rw [lastState_append]
        rw [List.length_append]
        have hdrop : (c :: t).drop ((c :: t.take m).length + (chunksText C1').length) =
            (t.drop m).drop (chunksText C1').length := by
          rw [List.length_cons, List.drop_drop]
          have h1 : (c :: t).drop ((t.take m).length + 1 + (chunksText C1').length) =
              t.drop ((t.take m).length + (chunksText C1').length) := by
            have : (t.take m).length + 1 + (chunksText C1').length =
                ((t.take m).length + (chunksText C1').length) + 1 := by omega
            rw [this]
            rfl
          rw [h1]
          by_cases hmt : m ≤ t.length
          · rw [List.length_take, Nat.min_eq_left hmt]
          · have hlen : t.length ≤ m := by omega
            rw [List.length_take, Nat.min_eq_right (by omega)]
            rw [List.drop_eq_nil_of_le (by omega), List.drop_eq_nil_of_le (by omega)]
        rw [hdrop]
        exact this

theorem scan_prefix_trunc (B : List Chunk) :
    ∀ (b : Bool) (ext : List Char) (rest : List Chunk),
      scanChunks b (chunksText B ++ ext) = B ++ rest →
      scanChunks b (chunksText B) = B := by
  induction B with
  | nil =>
    intro b ext rest _
    rfl
  | cons ch B' ih =>
    intro b ext rest h
    cases ch with
    | plain c =>
      rw [chunksText_cons] at h ⊢
      simp only [chunkText, List.cons_append, List.nil_append] at h ⊢
      cases hm : matchLen b (c :: (chunksText B' ++ ext)) with
      | succ m =>
        rw [scanChunks_cons, hm] at h
        simp only at h
        exact absurd h (by simp)
      | zero =>
        rw [scanChunks_cons, hm] at h
        simp only at h
        injection h with _ htail
        have hm0 : matchLen b (c :: chunksText B') = 0 := by
          have := matchLen_trunc b (c :: chunksText B') ext (by
            rw [List.cons_append, hm]
            omega)
          rw [List.cons_append] at this
          rw [this, hm]
        rw [scanChunks_cons, hm0]
        simp only
        rw [ih (isAZ c) ext rest htail]
    | matched mcs =>
      cases mcs with
      | nil =>
        rw [chunksText_cons] at h
        simp only [chunkText, List.nil_append] at h
        cases hT : chunksText B' ++ ext with
        | nil =>
          rw [hT, scanChunks_nil] at h
          exact absurd h (by simp)
        | cons c t =>
          rw [hT, scanChunks_cons] at h
          cases hm : matchLen b (c :: t) with
          | zero =>
            rw [hm] at h
            simp only at h
            exact absurd h (by simp)
          | succ m =>
            rw [hm] at h
            simp only at h
            injection h with hch _
            injection hch with hch2
            exact absurd hch2 (by simp)
      | cons c mrest =>
        rw [chunksText_cons] at h ⊢
        simp only [chunkText, List.cons_append, List.append_assoc] at h ⊢
        cases hm : matchLen b (c :: (mrest ++ (chunksText B' ++ ext))) with
        | zero =>
          rw [scanChunks_cons, hm] at h
          simp only at h
          exact absurd h (by simp)
        | succ m =>
          rw [scanChunks_cons, hm] at h
          simp only at h
          injection h with hch htail
          injection hch with hch2
          have hmle := matchLen_le b (c :: (mrest ++ (chunksText B' ++ ext)))
          rw [hm] at hmle
          simp only [List.length_cons, List.length_append] at hmle
          injection hch2 with _ hch3
          have htake : (mrest ++ (chunksText B' ++ ext)).take m = mrest := hch3
          have hmlen : m = mrest.length := by
            have := congrArg List.length htake
            rw [List.length_take] at this
            simp only [List.length_append] at this
            omega
          subst hmlen
          have htr : matchLen b (c :: (mrest ++ chunksText B')) = mrest.length + 1 := by
            have h2 := matchLen_trunc b (c :: (mrest ++ chunksText B')) ext (by
              rw [List.cons_append, List.append_assoc, hm]
              simp only [List.length_cons, List.length_append]
              omega)
            rw [List.cons_append, List.append_assoc] at h2
            rw [h2, hm]
          rw [scanChunks_cons, htr]
          simp only
          rw [List.take_left' rfl, List.drop_left' rfl]
          congr 1
          have htail2 : (mrest ++ (chunksText B' ++ ext)).drop mrest.length =
              chunksText B' ++ ext := List.drop_left' rfl
          rw [htake, htail2] at htail
          exact ih (lastState b (c :: mrest)) ext rest htail

def chunkBad : Chunk → Bool
  | .plain _ => false
  | .matched m => (parsePriceL m).isSome

theorem chunksText_append (A B : List Chunk) :
    chunksText (A ++ B) = chunksText A ++ chunksText B := by
  simp [chunksText]

theorem segsCore_no_marked (C : List Chunk) :
    ∀ buf, (∀ ch ∈ C, chunkBad ch = false) →
      ∀ sg ∈ segsCore C buf, isMarkedSeg sg = false := by
  induction C with
  | nil =>
    intro buf _ sg hsg
    rw [segsCore] at hsg
    split at hsg <;> simp_all [isMarkedSeg]
  | cons ch rest ih =>
    intro buf hnb sg hsg
    cases ch with
    | plain c =>
      rw [segsCore] at hsg
      exact ih (buf ++ [c]) (fun x hx => hnb x (List.mem_cons_of_mem _ hx)) sg hsg
    | matched m =>
      have hbm : chunkBad (Chunk.matched m) = false := hnb _ (by simp)
      rw [segsCore] at hsg
      cases hp : parsePriceL m with
      | some p =>
        rw [chunkBad, hp] at hbm
        simp at hbm
      | none =>
        rw [hp] at hsg
        exact ih (buf ++ m) (fun x hx => hnb x (List.mem_cons_of_mem _ hx)) sg hsg

/-- A run of chunks that sits, after a clean boundary, inside some full
scan of a text from the initial lookbehind state, re-scans (in isolation,
again from the initial state) to exactly itself. -/
theorem scan_run_clean (s : List Char) (Cdone B rest : List Chunk)
    (hscan : scanChunks false s = Cdone ++ B ++ rest)
    (hdone : Cdone = [] ∨ ∃ D m, Cdone = D ++ [Chunk.matched m]) :
    scanChunks false (chunksText B) = B := by
  have hstate : lastState false (chunksText Cdone) = false := by
    rcases hdone with rfl | ⟨D, m, rfl⟩
    · rfl
    · have hmem : Chunk.matched m ∈ scanChunks false s := by
        rw [hscan]
        simp
      obtain ⟨c, hc, hcf⟩ := matched_scan_last false s m hmem
      rw [chunksText_append]
      rw [lastState_append]
      unfold lastState
      rw [chunksText_cons]
      simp only [chunkText, chunksText, List.map_nil, List.flatten_nil,
        List.append_nil]
      rw [hc]
      exact hcf
  have hsplit := scan_split Cdone false s (B ++ rest) (by
    rw [hscan, List.append_assoc])
  rw [hstate] at hsplit
  have hs_eq : s = chunksText Cdone ++ (chunksText B ++ chunksText rest) := by
    have := chunksText_scan false s
    rw [hscan] at this
    rw [← this, chunksText_append, chunksText_append, List.append_assoc]
  have hdrop : s.drop (chunksText Cdone).length = chunksText B ++ chunksText rest := by
    rw [hs_eq]
    exact List.drop_left _ _
  rw [hdrop] at hsplit
  exact scan_prefix_trunc B false (chunksText rest) rest hsplit

/-- Every plain segment emitted while folding the tail `C` of a scan (with
`B` the non-rejected... buffered chunks since the last accepted match and
`Cdone` the chunks before them) re-annotates with no marked segment. -/
theorem plain_seg_clean (C : List Chunk) :
    ∀ (B Cdone : List Chunk) (s : List Char),
      scanChunks false s = Cdone ++ B ++ C →
      (Cdone = [] ∨ ∃ D m, Cdone = D ++ [Chunk.matched m]) →
      (∀ ch ∈ B, chunkBad ch = false) →
      ∀ cs, Seg.plain cs ∈ segsCore C (chunksText B) →
        ∀ sg ∈ annotateL cs, isMarkedSeg sg = false := by
  induction C with
  | nil =>
    intro B Cdone s hscan hdone hnb cs hcs sg hsg
    rw [segsCore] at hcs
    split at hcs
    · simp at hcs
    · rcases List.mem_cons.mp hcs with heq | hmem
      · injection heq with heq2
        subst heq2
        have hrun := scan_run_clean s Cdone B [] (by simpa using hscan) hdone
        unfold annotateL at hsg
        rw [hrun] at hsg
        exact segsCore_no_marked B [] hnb sg hsg
      · simp at hmem
  | cons ch C' ih =>
    intro B Cdone s hscan hdone hnb cs hcs sg hsg
    cases ch with
    | plain c =>
      rw [segsCore] at hcs
      have hbuf : chunksText B ++ [c] = chunksText (B ++ [Chunk.plain c]) := by
        rw [chunksText_append]
        rfl
      rw [hbuf] at hcs
      refine ih (B ++ [Chunk.plain c]) Cdone s ?_ hdone ?_ cs hcs sg hsg
      · rw [hscan]
        simp [List.append_assoc]
      · intro x hx
        rcases List.mem_append.mp hx with h1 | h2
        · exact hnb x h1
        · simp at h2
          subst h2
          rfl
    | matched m =>
      rw [segsCore] at hcs
      cases hp : parsePriceL m with
      | none =>
        rw [hp] at hcs
        have hbuf : chunksText B ++ m = chunksText (B ++ [Chunk.matched m]) := by
          rw [chunksText_append]
          simp [chunksText, chunkText]
        rw [hbuf] at hcs
        refine ih (B ++ [Chunk.matched m]) Cdone s ?_ hdone ?_ cs hcs sg hsg
        · rw [hscan]
          simp [List.append_assoc]
        · intro x hx
          rcases List.mem_append.mp hx with h1 | h2
          · exact hnb x h1
          · simp at h2
            subst h2
            rw [chunkBad, hp]
            rfl
      | some p =>
        rw [hp] at hcs
        rcases List.mem_append.mp hcs with h1 | h2
        · have hcs2 : cs = chunksText B := by
            split at h1
            · simp at h1
            · simp at h1
              exact h1
          subst hcs2
          have hrun := scan_run_clean s Cdone B (Chunk.matched m :: C') hscan hdone
          unfold annotateL at hsg
          rw [hrun] at hsg
          exact segsCore_no_marked B [] hnb sg hsg
        · rcases List.mem_cons.mp h2 with heq | hmem
          · exact absurd heq (by simp)
          · have hbuf0 : ([] : List Char) = chunksText [] := rfl
            rw [hbuf0] at hmem
            refine ih [] (Cdone ++ B ++ [Chunk.matched m]) s ?_ ?_ ?_ cs hmem sg hsg
            · rw [hscan]
              simp [List.append_assoc]
            · right
              exact ⟨Cdone ++ B, m, rfl⟩
            · intro x hx
              simp at hx

theorem reannotateSeg_fix (t : String) (sg : Seg) (h : sg ∈ annotate t) :
    reannotateSeg sg = [sg] := by
  cases sg with
  | marked cs p => rfl
  | plain cs =>
    have hmem : Seg.plain cs ∈ segsCore (scanChunks false t.data) (chunksText []) := h
    have hclean := plain_seg_clean (scanChunks false t.data) [] [] t.data
      (by simp) (Or.inl rfl) (by simp) cs hmem
    have hany : (annotateL cs).any isMarkedSeg = false := by
      rw [List.any_eq_false]
      intro x hx
      rw [hclean x hx]
      simp
    show (if (annotateL cs).any isMarkedSeg = true then annotateL cs
      else [Seg.plain cs]) = [Seg.plain cs]
    rw [hany]
    simp

theorem flatten_map_singleton (f : Seg → List Seg) :
    ∀ l : List Seg, (∀ sg ∈ l, f sg = [sg]) → (l.map f).flatten = l := by
  intro l
  induction l with
  | nil => intro _; rfl
  | cons sg rest ih =>
    intro h
    simp only [List.map_cons, List.flatten_cons]
    rw [h sg (by simp), ih (fun x hx => h x (List.mem_cons_of_mem _ hx))]
    rfl

/-! ## Claim C2: idempotence of scanning -/

/-- C2 — Scanning an already-annotated result a second time changes
nothing: marked segments carry the `data-price-detected` marker and are
skipped unchanged, and re-annotating any plain segment finds no accepted
match (so `processTextNode` leaves it untouched); hence the segment list —
in particular the set of marked segments — after two runs equals the one
after a single run.  Likewise `processStructuredPriceElement` is
idempotent on elements. -/
theorem scan_idempotent :
    (∀ t : String, reannotate (annotate t) = annotate t) ∧
    (∀ e : Element, processStructuredPriceElement (processStructuredPriceElement e) =
      processStructuredPriceElement e) := by
  constructor
  · intro t
    unfold reannotate
    exact flatten_map_singleton reannotateSeg (annotate t) (reannotateSeg_fix t)
  · intro e
    by_cases h1 : e.priceDetected = true
    · simp [processStructuredPriceElement, h1]
    · by_cases h2 : shouldSkipElement e = true
      · simp [processStructuredPriceElement, h1, h2]
      · cases hex : extractFromElement e with
        | none => simp [processStructuredPriceElement, h1, h2, hex]
        | some pr =>
          obtain ⟨a, cur⟩ := pr
          have hstep : processStructuredPriceElement e = markElement e a cur := by
            simp [processStructuredPriceElement, h1, h2, hex]
          rw [hstep]
          show processStructuredPriceElement (markElement e a cur) = _
          simp [processStructuredPriceElement, markElement]
